import Mathlib

/-!
Verification of the word-lattice subsystem (theanolm/scoring/lattice.py).

The development shallowly embeds the Lattice class: nodes and links are kept
in dense, id-indexed arenas and object references are node or link indices,
following the arena-and-index pattern the specification recommends.  Python
numbers (int or float) are modelled by `PyNum`; the float coercion `x + 0.0`
and the negation used by the Kaldi writer are modelled on rationals.  The
fallible parts (attribute access through an index that is out of range, and
the cycle error of `sorted_nodes`) return `Except`/`Option` values.
-/

namespace WordLattice

/-- A Python number: either an int or a float.  Floats are modelled by
rational values, which is exact for every decimal literal appearing in the
lattice files this module reads and writes. -/
inductive PyNum where
  | int (n : Int)
  | float (q : ℚ)
deriving DecidableEq

/-- Numeric value of a Python number. -/
def PyNum.toRat : PyNum → ℚ
  | .int n => (n : ℚ)
  | .float q => q

/-- Builds a float literal from a numerator and a denominator; `mkRat`
keeps every value used in the claims kernel-computable. -/
def pyFloat (n : Int) (d : ℕ) : PyNum := .float (mkRat n d)

/-- The coercion `x + 0.0` used by both writers: the result is always a
float with the same numeric value. -/
def pyAdd0 (v : PyNum) : PyNum := .float v.toRat

/-- Python unary minus: an int stays an int, a float stays a float. -/
def pyNeg : PyNum → PyNum
  | .int n => .int (-n)
  | .float q => .float (-q)

/-- Digits of the decimal expansion of `num / den` after the decimal point,
with a step bound.  The expansion of every rational whose denominator has
only the prime factors 2 and 5 (every exact binary float printed in decimal)
terminates before the bound is reached. -/
def fracDigits : ℕ → ℕ → ℕ → String
  | _, _, 0 => ""
  | num, den, fuel + 1 =>
    if num = 0 then ""
    else toString (num * 10 / den) ++ fracDigits (num * 10 % den) den fuel

/-- Decimal rendering of a nonnegative rational, always with a decimal
point and at least one digit after it, like Python `str` on a float. -/
def floatReprNN (q : ℚ) : String :=
  let n : ℕ := q.num.toNat
  let d : ℕ := q.den
  toString (n / d) ++ "." ++ (let f := fracDigits (n % d) d 40; if f = "" then "0" else f)

/-- Decimal rendering of a rational as Python renders the float of that
value: sign, integer part, decimal point, fraction digits. -/
def floatRepr (q : ℚ) : String :=
  if q < 0 then "-" ++ floatReprNN (-q) else floatReprNN q

/-- Python `"{}".format(x)` on a number: ints render without a decimal
point, floats with one. -/
def PyNum.pyStr : PyNum → String
  | .int n => toString n
  | .float q => floatRepr q

/-- Python `"{}".format(x)` where `x` is an optional string; `None` renders
as the literal `None`. -/
def optStr : Option String → String
  | none => "None"
  | some s => s

/-- A link between two graph nodes (class `Lattice.Link`).  The two node
fields are indices into the arena of nodes. -/
structure Link where
  start_node : ℕ
  end_node : ℕ
  word : Option String
  ac_logprob : Option PyNum
  lm_logprob : Option PyNum
  transitions : String
deriving DecidableEq, Inhabited

/-- The constructor `Lattice.Link.__init__` exactly as the source writes it:
the body stores `None` into the word field (line `self.word = None`), so the
`word` argument is discarded. -/
def Link.init (start_node : ℕ) (end_node : ℕ) (word : Option String)
    (ac_logprob : Option PyNum) (lm_logprob : Option PyNum)
    (transitions : String) : Link :=
  { start_node := start_node
    end_node := end_node
    word := none
    ac_logprob := ac_logprob
    lm_logprob := lm_logprob
    transitions := transitions }

/-- A node in the graph (class `Lattice.Node`).  The adjacency lists hold
link indices. -/
structure Node where
  id : ℕ
  out_links : List ℕ
  in_links : List ℕ
  time : Option PyNum
  best_logprob : Option PyNum
  final : Bool
deriving DecidableEq, Inhabited

/-- The constructor `Lattice.Node.__init__`. -/
def Node.init (node_id : ℕ) : Node :=
  { id := node_id
    out_links := []
    in_links := []
    time := none
    best_logprob := none
    final := false }

/-- The word lattice (class `Lattice`): dense arenas of nodes and links plus
the header metadata. -/
structure Lattice where
  nodes : List Node
  links : List Link
  initial_node : Option ℕ
  utterance_id : Option String
  lm_scale : Option PyNum
  wi_penalty : Option PyNum
deriving DecidableEq, Inhabited

/-- The constructor `Lattice.__init__`: an empty lattice. -/
def Lattice.empty : Lattice :=
  { nodes := []
    links := []
    initial_node := none
    utterance_id := none
    lm_scale := none
    wi_penalty := none }

/-! ### SLF writer -/

/-- One node line of the SLF output: `I=<id>` and, when the time stamp is
present, the tab-separated field `t=<time>`. -/
def Node.slfLine (nd : Node) : String :=
  String.intercalate "\t"
    (["I=" ++ toString nd.id]
      ++ (match nd.time with
          | none => []
          | some t => ["t=" ++ t.pyStr])) ++ "\n"

/-- One link line of the SLF output.  The source reads `link.start_node.id`
and `link.end_node.id` through object references; here that is an arena
lookup, and a reference outside the store yields `none`. -/
def Lattice.slfLinkLine (L : Lattice) (link_id : ℕ) (link : Link) : Option String :=
  match L.nodes.get? link.start_node, L.nodes.get? link.end_node with
  | some na, some nb =>
    some (String.intercalate "\t"
      (["J=" ++ toString link_id,
        "S=" ++ toString na.id,
        "E=" ++ toString nb.id]
        ++ [match link.word with
            | none => "W=!NULL"
            | some w => "W=" ++ w]
        ++ (match link.ac_logprob with
            | none => []
            | some a => ["a=" ++ (pyAdd0 a).pyStr])
        ++ (match link.lm_logprob with
            | none => []
            | some l2 => ["l=" ++ (pyAdd0 l2).pyStr])) ++ "\n")
  | _, _ => none

/-- The link lines of the SLF output, produced by
`for link_id, link in enumerate(self.links)`. -/
def Lattice.slfLinkLines (L : Lattice) : ℕ → List Link → Option String
  | _, [] => some ""
  | link_id, link :: rest => do
    let line ← L.slfLinkLine link_id link
    let more ← L.slfLinkLines (link_id + 1) rest
    pure (line ++ more)

/-- The method `Lattice.write_slf`, as the concatenation of everything the
source writes to the output file, in write order. -/
def Lattice.write_slf (L : Lattice) : Option String := do
  let linkPart ← L.slfLinkLines 0 L.links
  pure ("VERSION=1.1\n"
    ++ "UTTERANCE=\"" ++ optStr L.utterance_id ++ "\"\n"
    ++ (match
          (match L.lm_scale with
            | none => []
            | some v => ["lmscale=" ++ v.pyStr])
          ++ (match L.wi_penalty with
              | none => []
              | some v => ["wdpenalty=" ++ v.pyStr]) with
        | [] => ""
        | f :: rest => String.intercalate "\t" (f :: rest) ++ "\n")
    ++ "N=" ++ toString L.nodes.length ++ "\tL=" ++ toString L.links.length ++ "\n"
    ++ String.join (L.nodes.map Node.slfLine)
    ++ linkPart)

/-! ### Kaldi writer -/

/-- The inner function `write_normal_link` of `Lattice.write_kaldi`.  The
mapping collaborator is modelled as a total function from word labels to
integer ids; a missing log probability makes the Python negation fail, which
is modelled by `none`. -/
def Lattice.write_normal_link (L : Lattice) (word_to_id : String → Int)
    (link : Link) : Option String := do
  let word : String :=
    match link.word with
    | none => "<eps>"
    | some w => if w = "</s>" then "!SENT_END" else w
  let na ← L.nodes.get? link.start_node
  let nb ← L.nodes.get? link.end_node
  let lm ← link.lm_logprob
  let ac ← link.ac_logprob
  pure (toString na.id ++ " " ++ toString nb.id ++ " "
    ++ toString (word_to_id word) ++ " "
    ++ (pyAdd0 (pyNeg lm)).pyStr ++ "," ++ (pyAdd0 (pyNeg ac)).pyStr ++ ","
    ++ link.transitions ++ "\n")

/-- The inner function `write_final_link` of `Lattice.write_kaldi`. -/
def Lattice.write_final_link (L : Lattice) (link : Link) : Option String := do
  let na ← L.nodes.get? link.start_node
  let lm ← link.lm_logprob
  let ac ← link.ac_logprob
  pure (toString na.id ++ " "
    ++ (pyAdd0 (pyNeg lm)).pyStr ++ "," ++ (pyAdd0 (pyNeg ac)).pyStr ++ ","
    ++ link.transitions ++ "\n")

/-- The `for link in node.out_links` body of `Lattice.write_kaldi`: a link
whose end node is final uses the final-link format, every other link the
normal format. -/
def Lattice.kaldiLinkBlock (L : Lattice) (word_to_id : String → Int) :
    List ℕ → Option String
  | [] => some ""
  | j :: rest => do
    let link ← L.links.get? j
    let nb ← L.nodes.get? link.end_node
    let line ← if nb.final then L.write_final_link link
               else L.write_normal_link word_to_id link
    let more ← L.kaldiLinkBlock word_to_id rest
    pure (line ++ more)

/-- The `for node in self.nodes` body of `Lattice.write_kaldi`. -/
def Lattice.kaldiNodeBlock (L : Lattice) (word_to_id : String → Int) :
    List Node → Option String
  | [] => some ""
  | nd :: rest => do
    let part ← L.kaldiLinkBlock word_to_id nd.out_links
    let more ← L.kaldiNodeBlock word_to_id rest
    pure (part ++ more)

/-- The method `Lattice.write_kaldi`: it first stores id `0` for the label
`!SENT_END` in the mapping, then writes the utterance id line, the link
lines in node storage order, and a final blank line.  The updated mapping is
returned together with the output text, since the Python dict assignment is
an effect visible to the caller. -/
def Lattice.write_kaldi (L : Lattice) (word_to_id : String → Int) :
    Option (String × (String → Int)) := do
  let m2 : String → Int := fun w => if w = "!SENT_END" then 0 else word_to_id w
  let body ← L.kaldiNodeBlock m2 L.nodes
  pure (optStr L.utterance_id ++ "\n" ++ body ++ "\n", m2)

/-! ### Topological sort -/

/-- Time stamp of the node with the given index. -/
def nodeTime (L : Lattice) (i : ℕ) : Option PyNum :=
  match L.nodes.get? i with
  | none => none
  | some nd => nd.time

/-- Python comparison of the sort keys `(x.time is None, x.time)`: a pair
with first component `True` (no time stamp) is greater than any pair with a
time stamp, and two stamped keys compare by value. -/
def pyKeyGT (ta tb : Option PyNum) : Bool :=
  match ta, tb with
  | none, none => false
  | none, some _ => true
  | some _, none => false
  | some x, some y => decide (y.toRat < x.toRat)

/-- Ordering used to model `node_queue.sort(key=..., reverse=True)`: `a` may
be placed before `b` exactly when the key of `a` is not smaller than the key
of `b`. -/
def queueRel (L : Lattice) (a b : ℕ) : Prop :=
  pyKeyGT (nodeTime L b) (nodeTime L a) = false

instance (L : Lattice) : DecidableRel (queueRel L) := fun _ _ => by
  unfold queueRel; infer_instance

/-- The Python stable descending sort of the queue.  A stable sort of a list
is unique, and insertion sort with `queueRel` computes it: each element is
inserted before every element with an equal key that occurred later in the
input. -/
def sortQueue (L : Lattice) (q : List ℕ) : List ℕ :=
  q.insertionSort (queueRel L)

/-- Failures of `sorted_nodes`: the cycle error raised by the source, an
attribute or index access through a reference that is not in the store, the
assertion after the loop, and exhaustion of the step bound (which is proved
unreachable). -/
inductive SortErr where
  | cycle
  | badNode
  | assertFail
  | fuelOut
deriving DecidableEq

/-- State of the sorting loop: the queue of nodes to visit, the remaining
in-degree array, and the accumulated result. -/
structure SortState where
  node_queue : List ℕ
  in_degrees : List Int
  result : List ℕ
deriving DecidableEq

/-- The `for link in node.out_links` body of `Lattice.sorted_nodes`:
decrement the remaining in-degree of the end node; on zero, enqueue it and
re-sort the queue; on a negative value, raise the cycle error. -/
def processLinks (L : Lattice) :
    List ℕ → List ℕ → List Int → Except SortErr (List ℕ × List Int)
  | [], q, d => .ok (q, d)
  | j :: rest, q, d =>
    match L.links.get? j with
    | none => .error .badNode
    | some link =>
      match L.nodes.get? link.end_node with
      | none => .error .badNode
      | some nd =>
        match d.get? nd.id with
        | none => .error .badNode
        | some x =>
          if x - 1 = 0 then
            processLinks L rest (sortQueue L (q ++ [link.end_node])) (d.set nd.id (x - 1))
          else if x - 1 < 0 then .error .cycle
          else processLinks L rest q (d.set nd.id (x - 1))

/-- The `while node_queue` loop of `Lattice.sorted_nodes`, with an explicit
step bound.  `pop()` removes the last element of the queue; the popped node
is appended to the result before its outgoing links are processed. -/
def sortLoop (L : Lattice) : ℕ → SortState → Except SortErr SortState
  | 0, st => if st.node_queue.isEmpty then .ok st else .error .fuelOut
  | fuel + 1, st =>
    match st.node_queue.getLast? with
    | none => .ok st
    | some node =>
      match L.nodes.get? node with
      | none => .error .badNode
      | some nd =>
        match processLinks L nd.out_links st.node_queue.dropLast st.in_degrees with
        | .error e => .error e
        | .ok (q2, d2) => sortLoop L fuel { node_queue := q2, in_degrees := d2, result := st.result ++ [node] }

/-- The method `Lattice.sorted_nodes`.  The queue is seeded with the initial
node only; the in-degree array is initialised from the in-link counts; after
the loop a short result yields the unreachable-nodes warning (the Boolean in
the result), an equal length yields no warning, and a longer result would
fail the assertion. -/
def Lattice.sorted_nodes (L : Lattice) : Except SortErr (List ℕ × Bool) :=
  match L.initial_node with
  | none => .error .badNode
  | some i0 =>
    match sortLoop L (L.nodes.length + 1)
        { node_queue := [i0]
          in_degrees := L.nodes.map (fun nd => (nd.in_links.length : Int))
          result := [] } with
    | .error e => .error e
    | .ok st =>
      if st.result.length < L.nodes.length then .ok (st.result, true)
      else if st.result.length = L.nodes.length then .ok (st.result, false)
      else .error .assertFail

/-! ### Ordering facts about the queue key -/

theorem pyKeyGT_irrefl (t : Option PyNum) : pyKeyGT t t = false := by
  cases t <;> simp [pyKeyGT]

theorem pyKeyGT_asymm {a b : Option PyNum} (h : pyKeyGT a b = true) :
    pyKeyGT b a = false := by
  cases a <;> cases b <;> simp_all [pyKeyGT] <;> linarith

theorem pyKeyGT_false_trans {a b c : Option PyNum}
    (hab : pyKeyGT a b = false) (hbc : pyKeyGT b c = false) :
    pyKeyGT a c = false := by
  cases a <;> cases b <;> cases c <;> simp_all [pyKeyGT] <;> linarith

instance (L : Lattice) : IsTrans ℕ (queueRel L) :=
  ⟨fun _ _ _ hab hbc => pyKeyGT_false_trans hbc hab⟩

instance (L : Lattice) : IsTotal ℕ (queueRel L) := by
  refine ⟨fun a b => ?_⟩
  by_cases h : pyKeyGT (nodeTime L b) (nodeTime L a) = true
  · exact Or.inr (pyKeyGT_asymm h)
  · exact Or.inl (Bool.eq_false_iff.mpr h)

theorem sortQueue_perm (L : Lattice) (q : List ℕ) : List.Perm (sortQueue L q) q :=
  List.perm_insertionSort (queueRel L) q

theorem sortQueue_length (L : Lattice) (q : List ℕ) :
    (sortQueue L q).length = q.length :=
  (sortQueue_perm L q).length_eq

theorem sortQueue_mem (L : Lattice) (q : List ℕ) (x : ℕ) :
    x ∈ sortQueue L q ↔ x ∈ q :=
  (sortQueue_perm L q).mem_iff

theorem sortQueue_nodup (L : Lattice) (q : List ℕ) (h : q.Nodup) :
    (sortQueue L q).Nodup :=
  ((sortQueue_perm L q).nodup_iff).mpr h

/-- The node popped from the sorted queue has a key not larger than the key
of any member of the queue: the smallest time stamp wins and an absent time
stamp loses to every stamped node. -/
theorem sortQueue_getLast_min (L : Lattice) (q : List ℕ) (z v : ℕ)
    (hv : v ∈ q) (hz : (sortQueue L q).getLast? = some z) :
    pyKeyGT (nodeTime L z) (nodeTime L v) = false := by
  have hsorted : List.Sorted (queueRel L) (sortQueue L q) :=
    List.sorted_insertionSort (queueRel L) q
  have hvmem : v ∈ sortQueue L q := (sortQueue_mem L q v).mpr hv
  have hne : sortQueue L q ≠ [] := by
    intro h
    rw [h] at hvmem
    exact absurd hvmem (List.not_mem_nil v)
  have hzlast : (sortQueue L q).getLast hne = z := by
    have := List.getLast?_eq_getLast (sortQueue L q) hne
    rw [this] at hz
    exact Option.some.inj hz
  have hdecomp : (sortQueue L q).dropLast ++ [z] = sortQueue L q := by
    rw [← hzlast]
    exact List.dropLast_append_getLast hne
  rcases List.mem_append.mp (hdecomp ▸ hvmem) with hvd | hvz
  · have hpw : List.Pairwise (queueRel L) ((sortQueue L q).dropLast ++ [z]) := by
      rw [hdecomp]; exact hsorted
    have := (List.pairwise_append.mp hpw).2.2 v hvd z (List.mem_singleton.mpr rfl)
    exact this
  · have : v = z := List.mem_singleton.mp hvz
    subst this
    exact pyKeyGT_irrefl _

theorem getLast?_orderedInsert (L : Lattice) :
    ∀ (l : List ℕ) (a x : ℕ), l.getLast? = some x → queueRel L a x →
      (l.orderedInsert (queueRel L) a).getLast? = some x := by
  intro l
  induction l with
  | nil => intro a x hx _; simp at hx
  | cons b l2 ih =>
    intro a x hx hax
    by_cases hab : queueRel L a b
    · rw [List.orderedInsert_of_le (queueRel L) l2 hab]
      rw [List.getLast?_cons_cons]
      exact hx
    · have : (b :: l2).orderedInsert (queueRel L) a = b :: l2.orderedInsert (queueRel L) a := by
        simp [List.orderedInsert, hab]
      rw [this]
      cases l2 with
      | nil =>
        exfalso
        have hbx : b = x := by simpa using hx
        subst hbx
        exact hab hax
      | cons c l3 =>
        rw [List.getLast?_cons_cons] at hx
        have h2 := ih a x hx hax
        have hne : (c :: l3).orderedInsert (queueRel L) a ≠ [] := by
          have : ((c :: l3).orderedInsert (queueRel L) a).length = l3.length + 2 := by
            rw [List.orderedInsert_length]
            simp
          intro hcontra
          rw [hcontra] at this
          simp at this
        cases hins : (c :: l3).orderedInsert (queueRel L) a with
        | nil => exact absurd hins hne
        | cons d l4 =>
          rw [List.getLast?_cons_cons]
          rw [hins] at h2
          exact h2

/-- A node appended to the queue with a key not larger than the key of any
queue member is popped next: ties go to the most recent entry. -/
theorem sortQueue_append_min (L : Lattice) :
    ∀ (q : List ℕ) (x : ℕ),
      (∀ y ∈ q, pyKeyGT (nodeTime L x) (nodeTime L y) = false) →
      (sortQueue L (q ++ [x])).getLast? = some x := by
  intro q
  induction q with
  | nil => intro x _; simp [sortQueue, List.insertionSort, List.orderedInsert]
  | cons a q2 ih =>
    intro x hx
    have step : sortQueue L ((a :: q2) ++ [x])
        = (sortQueue L (q2 ++ [x])).orderedInsert (queueRel L) a := by
      simp [sortQueue, List.insertionSort]
    rw [step]
    have hlast : (sortQueue L (q2 ++ [x])).getLast? = some x :=
      ih x (fun y hy => hx y (List.mem_cons_of_mem a hy))
    have hax : queueRel L a x := hx a (List.mem_cons_self a q2)
    exact getLast?_orderedInsert L _ a x hlast hax

/-! ### Concrete lattices used by the claims -/

/-- Helper to build a node record tersely. -/
def mkNode (i : ℕ) (outl inl : List ℕ) (t : Option PyNum) : Node :=
  { id := i, out_links := outl, in_links := inl, time := t,
    best_logprob := none, final := false }

/-- Helper to build a plain link record tersely. -/
def mkLink (s e : ℕ) : Link :=
  { start_node := s, end_node := e, word := none, ac_logprob := none,
    lm_logprob := none, transitions := "" }

/-- The round-trip scenario of the specification, with the single link made
by the source constructor `Link.__init__` from the word label `cat` and the
scores `-1.5` and `-0.5`. -/
def latScenario : Lattice :=
  { nodes := [mkNode 0 [0] [] none, mkNode 1 [] [0] none],
    links := [Link.init 0 1 (some "cat") (some (pyFloat (-3) 2)) (some (pyFloat (-1) 2)) ""],
    initial_node := some 0, utterance_id := some "utt1",
    lm_scale := none, wi_penalty := none }

/-- Claim C1.  The link-construction operation drops the word label: line 55
of the source stores `None` into the word field instead of the `word`
argument, contradicting the constructor docstring, and `write_slf`
consequently emits `W=!NULL` for a link that was constructed with the word
label `cat`.  The spec round-trip scenario demands a link line with `W=cat`;
the produced line carries `W=!NULL` instead. -/
theorem c1_link_word_dropped :
    (Link.init 0 1 (some "cat") (some (pyFloat (-3) 2)) (some (pyFloat (-1) 2)) "").word = none
    ∧ latScenario.write_slf =
        some ("VERSION=1.1\nUTTERANCE=\"utt1\"\nN=2\tL=1\nI=0\nI=1\nJ=0\tS=0\tE=1\tW=!NULL\ta=-1.5\tl=-0.5\n") := by
  constructor
  · rfl
  · rfl

/-- A lattice whose reachable part contains the cycle `1 → 2 → 1` behind a
frontier that stalls: node 1 has remaining in-degree 2 after node 0 is
processed, so neither cycle node is ever visited. -/
def latStalledCycle : Lattice :=
  { nodes := [mkNode 0 [0] [] none, mkNode 1 [1] [0, 2] none, mkNode 2 [2] [1] none],
    links := [mkLink 0 1, mkLink 1 2, mkLink 2 1],
    initial_node := some 0, utterance_id := none,
    lm_scale := none, wi_penalty := none }

/-- A two-node lattice with the cycle `0 → 1 → 0` through the initial
node. -/
def latMutualCycle : Lattice :=
  { nodes := [mkNode 0 [0] [1] none, mkNode 1 [1] [0] none],
    links := [mkLink 0 1, mkLink 1 0],
    initial_node := some 0, utterance_id := none,
    lm_scale := none, wi_penalty := none }

/-- A store with an unreachable node feeding a reachable one: node 2 is
reachable from the initial node 0 through link 0, but its second incoming
link starts at the unreachable node 1, so the remaining in-degree of node 2
never drops to zero and the traversal never visits it. -/
def latUnreach : Lattice :=
  { nodes := [mkNode 0 [0] [] none, mkNode 1 [1] [] none,
              mkNode 2 [] [0, 1] none],
    links := [mkLink 0 2, mkLink 1 2],
    initial_node := some 0, utterance_id := none,
    lm_scale := none, wi_penalty := none }

/-- A two-node chain in which every node is reachable from the initial
node. -/
def latChain2 : Lattice :=
  { nodes := [mkNode 0 [0] [] none, mkNode 1 [] [0] none],
    links := [mkLink 0 1],
    initial_node := some 0, utterance_id := none,
    lm_scale := none, wi_penalty := none }

/-! ### Graph relations -/

/-- There is a link from node `u` to node `v`. -/
def EdgeL (L : Lattice) (u v : ℕ) : Prop :=
  ∃ link ∈ L.links, link.start_node = u ∧ link.end_node = v

instance (L : Lattice) (u v : ℕ) : Decidable (EdgeL L u v) := by
  unfold EdgeL; infer_instance

/-- Node `v` is reachable from node `u` by following outgoing links. -/
def ReachL (L : Lattice) (u v : ℕ) : Prop :=
  Relation.ReflTransGen (EdgeL L) u v

/-- No cycle passes through a node reachable from `i0`. -/
def AcyclicFrom (L : Lattice) (i0 : ℕ) : Prop :=
  ∀ v, ReachL L i0 v → ¬ Relation.TransGen (EdgeL L) v v

theorem transGen_lt_of_edge_lt {L : Lattice}
    (h : ∀ u v, EdgeL L u v → u < v) :
    ∀ {a b : ℕ}, Relation.TransGen (EdgeL L) a b → a < b := by
  intro a b htg
  induction htg with
  | single h1 => exact h _ _ h1
  | tail _ h1 ih => exact lt_trans ih (h _ _ h1)

/-- A lattice whose every link goes from a smaller to a larger index has no
cycle at all. -/
theorem acyclicFrom_of_links_lt {L : Lattice}
    (h : ∀ link ∈ L.links, link.start_node < link.end_node)
    (i0 : ℕ) : AcyclicFrom L i0 := by
  intro v _ htg
  have hedge : ∀ u w, EdgeL L u w → u < w := by
    rintro u w ⟨link, hmem, h1, h2⟩
    have := h link hmem
    omega
  exact lt_irrefl v (transGen_lt_of_edge_lt hedge htg)

/-- Claim C3 counterexample: this store contains the cycle `1 → 2 → 1` among
nodes reachable from the initial node `0`, yet `sorted_nodes` raises no
error and returns a result: the cycle nodes keep a positive remaining
in-degree, are never visited, and only the unreachable-nodes warning is
produced.  The claim asserts a structural cycle failure with no result for
every such store. -/
theorem c3_counterexample :
    latStalledCycle.initial_node = some 0
    ∧ ReachL latStalledCycle 0 1
    ∧ Relation.TransGen (EdgeL latStalledCycle) 1 1
    ∧ latStalledCycle.sorted_nodes = .ok ([0], true) := by
  refine ⟨rfl, Relation.ReflTransGen.single (by decide), ?_, rfl⟩
  exact Relation.TransGen.head (show EdgeL latStalledCycle 1 2 by decide)
    (Relation.TransGen.single (show EdgeL latStalledCycle 2 1 by decide))

/-- Claim C3 (amended): the cycle error is tied to the traversal mechanism:
when a remaining in-degree goes negative, as happens for the cycle
`A → B → A` through the initial node, `sorted_nodes` fails with the cycle
error and returns no result; a reachable cycle whose nodes never enter the
ready set instead ends the traversal early with the unreachable-nodes
warning. -/
theorem c3_amended :
    latMutualCycle.initial_node = some 0
    ∧ Relation.TransGen (EdgeL latMutualCycle) 0 0
    ∧ latMutualCycle.sorted_nodes = .error .cycle := by
  exact ⟨rfl,
    Relation.TransGen.head (show EdgeL latMutualCycle 0 1 by decide)
      (Relation.TransGen.single (show EdgeL latMutualCycle 1 0 by decide)), rfl⟩

/-! ### Claim C5: time-ordered dequeueing -/

/-- Ready times `3.0, 1.0, 2.0` on the successors of the initial node. -/
def latTimes : Lattice :=
  { nodes := [mkNode 0 [0, 1, 2] [] none,
              mkNode 1 [] [0] (some (pyFloat 3 1)),
              mkNode 2 [] [1] (some (pyFloat 1 1)),
              mkNode 3 [] [2] (some (pyFloat 2 1))],
    links := [mkLink 0 1, mkLink 0 2, mkLink 0 3],
    initial_node := some 0, utterance_id := none,
    lm_scale := none, wi_penalty := none }

/-- One successor has no time stamp; the others are stamped. -/
def latNoTime : Lattice :=
  { nodes := [mkNode 0 [0, 1, 2] [] none,
              mkNode 1 [] [0] none,
              mkNode 2 [] [1] (some (pyFloat 2 1)),
              mkNode 3 [] [2] (some (pyFloat 1 1))],
    links := [mkLink 0 1, mkLink 0 2, mkLink 0 3],
    initial_node := some 0, utterance_id := none,
    lm_scale := none, wi_penalty := none }

/-- Two successors carry the same time stamp; node 1 enters the ready set
first and node 2 second. -/
def latTie : Lattice :=
  { nodes := [mkNode 0 [0, 1] [] none,
              mkNode 1 [] [0] (some (pyFloat 1 1)),
              mkNode 2 [] [1] (some (pyFloat 1 1))],
    links := [mkLink 0 1, mkLink 0 2],
    initial_node := some 0, utterance_id := none,
    lm_scale := none, wi_penalty := none }

/-- Claim C5.  With ready times `3.0, 1.0, 2.0` the nodes are dequeued in
time order `1.0, 2.0, 3.0`; a ready node with no time stamp is dequeued
after all stamped ready nodes; with equal stamps the most recent entry into
the ready set is dequeued first.  In general the dequeued node minimises the
key, and a newly entered node whose key is minimal is dequeued next. -/
theorem c5_time_tiebreak :
    latTimes.sorted_nodes = .ok ([0, 2, 3, 1], false)
    ∧ latNoTime.sorted_nodes = .ok ([0, 3, 2, 1], false)
    ∧ latTie.sorted_nodes = .ok ([0, 2, 1], false)
    ∧ (∀ (L : Lattice) (q : List ℕ) (z v : ℕ), v ∈ q →
        (sortQueue L q).getLast? = some z →
        pyKeyGT (nodeTime L z) (nodeTime L v) = false)
    ∧ (∀ (L : Lattice) (q : List ℕ) (x : ℕ),
        (∀ y ∈ q, pyKeyGT (nodeTime L x) (nodeTime L y) = false) →
        (sortQueue L (q ++ [x])).getLast? = some x) := by
  exact ⟨rfl, rfl, rfl, sortQueue_getLast_min, sortQueue_append_min⟩

/-- Witness for claim C5, at the tie lattice: node 2, the most recent entry
with a minimal key, is dequeued next. -/
theorem c5_time_tiebreak_witness :
    ((1 ∈ ([1, 2] : List ℕ))
      ∧ pyKeyGT (nodeTime latTie 2) (nodeTime latTie 1) = false)
    ∧ (sortQueue latTie ([1] ++ [2])).getLast? = some 2 := by
  refine ⟨⟨by decide, ?_⟩, ?_⟩
  · exact c5_time_tiebreak.2.2.2.1 latTie [1, 2] 2 1 (by decide) (by decide)
  · exact c5_time_tiebreak.2.2.2.2 latTie [1] 2 (by decide)

/-! ### Claim C10: the initial node heads the result -/

theorem sortLoop_result_append (L : Lattice) :
    ∀ (fuel : ℕ) (st st2 : SortState), sortLoop L fuel st = .ok st2 →
      ∃ ext, st2.result = st.result ++ ext := by
  intro fuel
  induction fuel with
  | zero =>
    intro st st2 h
    unfold sortLoop at h
    split at h
    · exact ⟨[], by cases h; simp⟩
    · exact Except.noConfusion h
  | succ n ih =>
    intro st st2 h
    unfold sortLoop at h
    cases hq : st.node_queue.getLast? with
    | none =>
      simp only [hq] at h
      cases h
      exact ⟨[], by simp⟩
    | some node =>
      simp only [hq] at h
      cases hn : L.nodes.get? node with
      | none => simp only [hn] at h; exact Except.noConfusion h
      | some nd =>
        simp only [hn] at h
        cases hp : processLinks L nd.out_links st.node_queue.dropLast st.in_degrees with
        | error e => simp only [hp] at h; exact Except.noConfusion h
        | ok pr =>
          obtain ⟨q2, d2⟩ := pr
          simp only [hp] at h
          obtain ⟨ext, hext⟩ := ih _ _ h
          refine ⟨node :: ext, ?_⟩
          rw [hext]
          simp

/-- Claim C10.  Whenever `sorted_nodes` returns a result, the result is
non-empty and begins with the initial node, which is popped and appended
before anything else regardless of its incoming links. -/
theorem c10_head_initial (L : Lattice) (i0 : ℕ) (res : List ℕ) (warn : Bool)
    (hinit : L.initial_node = some i0) (hok : L.sorted_nodes = .ok (res, warn)) :
    res ≠ [] ∧ res.head? = some i0 := by
  unfold Lattice.sorted_nodes at hok
  simp only [hinit] at hok
  cases hrun : sortLoop L (L.nodes.length + 1)
      { node_queue := [i0]
        in_degrees := L.nodes.map (fun nd => (nd.in_links.length : Int))
        result := [] } with
  | error e => simp only [hrun] at hok; exact Except.noConfusion hok
  | ok st =>
    simp only [hrun] at hok
    have hres : st.result = res := by
      by_cases h1 : st.result.length < L.nodes.length
      · rw [if_pos h1] at hok
        cases hok
        rfl
      · rw [if_neg h1] at hok
        by_cases h2 : st.result.length = L.nodes.length
        · rw [if_pos h2] at hok
          cases hok
          rfl
        · rw [if_neg h2] at hok
          exact Except.noConfusion hok
    -- one unfolding step of the loop shows the initial node is appended first
    unfold sortLoop at hrun
    have hq : ([i0] : List ℕ).getLast? = some i0 := by simp
    simp only [hq] at hrun
    cases hn : L.nodes.get? i0 with
    | none => simp only [hn] at hrun; exact Except.noConfusion hrun
    | some nd =>
      simp only [hn] at hrun
      cases hp : processLinks L nd.out_links ([i0] : List ℕ).dropLast
          (L.nodes.map (fun nd => (nd.in_links.length : Int))) with
      | error e => simp only [hp] at hrun; exact Except.noConfusion hrun
      | ok pr =>
        obtain ⟨q2, d2⟩ := pr
        simp only [hp] at hrun
        obtain ⟨ext, hext⟩ := sortLoop_result_append L _ _ _ hrun
        simp only [List.nil_append] at hext
        rw [← hres, hext]
        exact ⟨by simp, by simp⟩

/-- A two-node store whose initial node has one incoming link. -/
def latHeadIn : Lattice :=
  { nodes := [mkNode 0 [] [0] none, mkNode 1 [0] [] none],
    links := [mkLink 1 0],
    initial_node := some 0, utterance_id := none,
    lm_scale := none, wi_penalty := none }

/-- Witness for claim C10 at a store whose initial node has an incoming
link. -/
theorem c10_head_initial_witness :
    (latHeadIn.initial_node = some 0
      ∧ latHeadIn.sorted_nodes = .ok ([0], true)
      ∧ 0 < (latHeadIn.nodes.get ⟨0, by decide⟩).in_links.length)
    ∧ (([0] : List ℕ) ≠ [] ∧ ([0] : List ℕ).head? = some 0) := by
  exact ⟨⟨rfl, rfl, by decide⟩, c10_head_initial latHeadIn 0 [0] true rfl rfl⟩

/-! ### Claim C9: the sort leaves the store untouched -/

/-- The sorting loop with the store threaded through the state, so that a
mutation of the store by the loop body would be visible.  The body only
reads the store: every branch passes it on unchanged, mirroring the source,
whose loop writes only the local queue, result and in-degree array. -/
def sortLoopSt : ℕ → Lattice × SortState → Except SortErr (Lattice × SortState)
  | 0, (L, st) => if st.node_queue.isEmpty then .ok (L, st) else .error .fuelOut
  | fuel + 1, (L, st) =>
    match st.node_queue.getLast? with
    | none => .ok (L, st)
    | some node =>
      match L.nodes.get? node with
      | none => .error .badNode
      | some nd =>
        match processLinks L nd.out_links st.node_queue.dropLast st.in_degrees with
        | .error e => .error e
        | .ok (q2, d2) =>
          sortLoopSt fuel (L, { node_queue := q2, in_degrees := d2, result := st.result ++ [node] })

/-- The method `Lattice.sorted_nodes` with the store threaded through and
returned, exposing the state of the store after the call. -/
def Lattice.sorted_nodes_st (L : Lattice) : Except SortErr ((List ℕ × Bool) × Lattice) :=
  match L.initial_node with
  | none => .error .badNode
  | some i0 =>
    match sortLoopSt (L.nodes.length + 1)
        (L, { node_queue := [i0]
              in_degrees := L.nodes.map (fun nd => (nd.in_links.length : Int))
              result := [] }) with
    | .error e => .error e
    | .ok (L2, st) =>
      if st.result.length < L2.nodes.length then .ok ((st.result, true), L2)
      else if st.result.length = L2.nodes.length then .ok ((st.result, false), L2)
      else .error .assertFail

theorem sortLoopSt_frame :
    ∀ (fuel : ℕ) (L : Lattice) (st : SortState),
      sortLoopSt fuel (L, st) = (sortLoop L fuel st).map (fun s => (L, s)) := by
  intro fuel
  induction fuel with
  | zero =>
    intro L st
    unfold sortLoopSt sortLoop
    by_cases h : st.node_queue.isEmpty
    · rw [if_pos h, if_pos h]; rfl
    · rw [if_neg h, if_neg h]; rfl
  | succ n ih =>
    intro L st
    unfold sortLoopSt sortLoop
    cases hq : st.node_queue.getLast? with
    | none => simp only [hq]; rfl
    | some node =>
      simp only [hq]
      cases hn : L.nodes.get? node with
      | none => simp only [hn]; rfl
      | some nd =>
        simp only [hn]
        cases hp : processLinks L nd.out_links st.node_queue.dropLast st.in_degrees with
        | error e => simp only [hp]; rfl
        | ok pr =>
          obtain ⟨q2, d2⟩ := pr
          simp only [hp]
          exact ih L _

/-- Claim C9.  The sort never mutates the graph store: on the version with
the store threaded through the loop, every outcome carries the store exactly
as it was passed in, because the in-degree bookkeeping lives in a local
array and the body performs no store update. -/
theorem c9_sorted_nodes_pure (L : Lattice) :
    L.sorted_nodes_st = (L.sorted_nodes).map (fun r => (r, L)) := by
  cases h0 : L.initial_node with
  | none =>
    unfold Lattice.sorted_nodes_st Lattice.sorted_nodes
    simp only [h0]
    rfl
  | some i0 =>
    unfold Lattice.sorted_nodes_st Lattice.sorted_nodes
    simp only [h0]
    rw [sortLoopSt_frame]
    cases hr : sortLoop L (L.nodes.length + 1)
        { node_queue := [i0]
          in_degrees := L.nodes.map (fun nd => (nd.in_links.length : Int))
          result := [] } with
    | error e => simp [Except.map]
    | ok st =>
      simp only [Except.map]
      by_cases h1 : st.result.length < L.nodes.length
      · rw [if_pos h1, if_pos h1]
      · rw [if_neg h1, if_neg h1]
        by_cases h2 : st.result.length = L.nodes.length
        · rw [if_pos h2, if_pos h2]
        · rw [if_neg h2, if_neg h2]

/-! ### Specification-side description of the SLF output (claim C6)

The following definitions transcribe section 4.3 of the specification: the
exact line order, the exact field tokens, tab separation, and the
presence-based inclusion of optional fields.  They are written from the
specification text and compared with the source translation `write_slf`. -/

/-- Joins records one per line: every record is followed by a newline. -/
def joinLines : List String → String
  | [] => ""
  | s :: rest => s ++ "\n" ++ joinLines rest

theorem joinLines_append (a b : List String) :
    joinLines (a ++ b) = joinLines a ++ joinLines b := by
  induction a with
  | nil =>
    have : ("" : String) ++ joinLines b = joinLines b := rfl
    simp [joinLines, this]
  | cons s rest ih =>
    simp [joinLines, ih, String.append_assoc]

theorem string_foldl_append (l : List String) :
    ∀ x : String, l.foldl (· ++ ·) x = x ++ l.foldl (· ++ ·) "" := by
  induction l with
  | nil => intro x; simp
  | cons a t ih =>
    intro x
    simp only [List.foldl]
    rw [ih (x ++ a), ih ("" ++ a)]
    have h0 : ("" : String) ++ a = a := rfl
    rw [h0, String.append_assoc]

theorem string_join_cons (a : String) (l : List String) :
    String.join (a :: l) = a ++ String.join l := by
  show List.foldl (· ++ ·) ("" ++ a) l = a ++ List.foldl (· ++ ·) "" l
  rw [string_foldl_append l ("" ++ a)]
  have h0 : ("" : String) ++ a = a := rfl
  rw [h0]

/-- Specification line for one node: `I=<id>` and, if the time is present,
the tab-separated `t=<time>`. -/
def slfSpecNodeLine (nd : Node) : String :=
  "I=" ++ toString nd.id
    ++ (match nd.time with
        | none => ""
        | some t => "\t" ++ "t=" ++ t.pyStr)

/-- Specification line for the link with index `j`: `J=<index>`,
`S=<start id>`, `E=<end id>`, the `W` field with the literal `!NULL` when
the word is absent, then `a=` and `l=` only for scores that are present,
coerced to a float rendering. -/
def slfSpecLinkLine (L : Lattice) (j : ℕ) : String :=
  let link := L.links.getD j default
  "J=" ++ toString j
    ++ "\t" ++ "S=" ++ toString ((L.nodes.getD link.start_node default).id)
    ++ "\t" ++ "E=" ++ toString ((L.nodes.getD link.end_node default).id)
    ++ "\t" ++ "W=" ++ (match link.word with
        | none => "!NULL"
        | some w => w)
    ++ (match link.ac_logprob with
        | none => ""
        | some a => "\t" ++ "a=" ++ floatRepr a.toRat)
    ++ (match link.lm_logprob with
        | none => ""
        | some l2 => "\t" ++ "l=" ++ floatRepr l2.toRat)

/-- Specification lines of the whole SLF file, in the exact order of
section 4.3: version, utterance, the optional tab-joined scale line (omitted
entirely when neither field is present), the size line, one line per node in
storage order, one line per link in storage order. -/
def slfSpecLines (L : Lattice) : List String :=
  ["VERSION=1.1", "UTTERANCE=" ++ "\"" ++ optStr L.utterance_id ++ "\""]
  ++ (match L.lm_scale, L.wi_penalty with
      | none, none => []
      | some a, none => ["lmscale=" ++ a.pyStr]
      | none, some b => ["wdpenalty=" ++ b.pyStr]
      | some a, some b => ["lmscale=" ++ a.pyStr ++ "\t" ++ "wdpenalty=" ++ b.pyStr])
  ++ ["N=" ++ toString L.nodes.length ++ "\t" ++ "L=" ++ toString L.links.length]
  ++ L.nodes.map slfSpecNodeLine
  ++ (List.range L.links.length).map (slfSpecLinkLine L)

/-- The SLF serialization as described by the specification. -/
def slfSpec (L : Lattice) : String :=
  joinLines (slfSpecLines L)

theorem intercalateTab1 (a : String) :
    String.intercalate "\t" [a] = a := rfl

theorem intercalateTab2 (a b : String) :
    String.intercalate "\t" [a, b] = a ++ "\t" ++ b := rfl

theorem intercalateTab4 (a b c d : String) :
    String.intercalate "\t" [a, b, c, d] = a ++ "\t" ++ b ++ "\t" ++ c ++ "\t" ++ d := rfl

theorem intercalateTab5 (a b c d e : String) :
    String.intercalate "\t" [a, b, c, d, e]
      = a ++ "\t" ++ b ++ "\t" ++ c ++ "\t" ++ d ++ "\t" ++ e := rfl

theorem intercalateTab6 (a b c d e f : String) :
    String.intercalate "\t" [a, b, c, d, e, f]
      = a ++ "\t" ++ b ++ "\t" ++ c ++ "\t" ++ d ++ "\t" ++ e ++ "\t" ++ f := rfl

theorem wNullSplit : ("W=!NULL" : String) = "W=" ++ "!NULL" := rfl

theorem emptyAppendStr (s : String) : "" ++ s = s := rfl

theorem versionSplit : ("VERSION=1.1\n" : String) = "VERSION=1.1" ++ "\n" := rfl

theorem utteranceSplit : ("UTTERANCE=\"" : String) = "UTTERANCE=" ++ "\"" := rfl

theorem quoteNlSplit : ("\"\n" : String) = "\"" ++ "\n" := rfl

theorem tabLSplit : ("\tL=" : String) = "\t" ++ "L=" := rfl

theorem tabTSplit : ("\tt=" : String) = "\t" ++ "t=" := rfl

theorem slfLinkLine_spec (L : Lattice) (j : ℕ) (link : Link)
    (hj : L.links.getD j default = link)
    (hs : link.start_node < L.nodes.length)
    (he : link.end_node < L.nodes.length) :
    L.slfLinkLine j link = some (slfSpecLinkLine L j ++ "\n") := by
  have hna : L.nodes.get? link.start_node = some (L.nodes.get ⟨link.start_node, hs⟩) :=
    List.get?_eq_get hs
  have hnb : L.nodes.get? link.end_node = some (L.nodes.get ⟨link.end_node, he⟩) :=
    List.get?_eq_get he
  have hda : L.nodes.getD link.start_node default = L.nodes.get ⟨link.start_node, hs⟩ := by
    rw [List.getD_eq_get?, hna]; rfl
  have hdb : L.nodes.getD link.end_node default = L.nodes.get ⟨link.end_node, he⟩ := by
    rw [List.getD_eq_get?, hnb]; rfl
  simp only [Lattice.slfLinkLine, slfSpecLinkLine, hj, hna, hnb, hda, hdb]
  cases link.word <;> cases link.ac_logprob <;> cases link.lm_logprob <;>
    simp only [List.cons_append, List.nil_append, List.append_nil, intercalateTab4,
      intercalateTab5, intercalateTab6, PyNum.pyStr, pyAdd0, wNullSplit, emptyAppendStr,
      String.append_assoc]

theorem slfLinkLines_spec (L : Lattice) :
    ∀ (ls : List Link) (k : ℕ),
      (∀ link ∈ ls, link.start_node < L.nodes.length ∧ link.end_node < L.nodes.length) →
      (∀ i (hi : i < ls.length), L.links.getD (k + i) default = ls.get ⟨i, hi⟩) →
      L.slfLinkLines k ls
        = some (joinLines ((List.range ls.length).map (fun i => slfSpecLinkLine L (k + i)))) := by
  intro ls
  induction ls with
  | nil => intro k _ _; rfl
  | cons link rest ih =>
    intro k hv hidx
    have h0 : L.links.getD (k + 0) default = link := by
      have := hidx 0 (by simp)
      simpa using this
    rw [Nat.add_zero] at h0
    have hvl := hv link (List.mem_cons_self _ _)
    have hline := slfLinkLine_spec L k link h0 hvl.1 hvl.2
    have hrest := ih (k + 1)
      (fun l2 hl2 => hv l2 (List.mem_cons_of_mem _ hl2))
      (fun i hi => by
        have h1 := hidx (i + 1) (by simpa using Nat.succ_lt_succ hi)
        have h2 : k + 1 + i = k + (i + 1) := by omega
        rw [h2]
        simpa using h1)
    unfold Lattice.slfLinkLines
    rw [hline, hrest]
    show some _ = _
    simp only [List.length_cons]
    rw [List.range_succ_eq_map]
    simp only [List.map_cons, List.map_map]
    have hshift : (List.range rest.length).map ((fun i => slfSpecLinkLine L (k + i)) ∘ Nat.succ)
        = (List.range rest.length).map (fun i => slfSpecLinkLine L (k + 1 + i)) := by
      apply List.map_congr_left
      intro i _
      show slfSpecLinkLine L (k + (i + 1)) = slfSpecLinkLine L (k + 1 + i)
      congr 1
      omega
    rw [hshift]
    simp only [joinLines, Nat.add_zero, String.append_assoc]

theorem slfNodeLine_spec (nd : Node) :
    Node.slfLine nd = slfSpecNodeLine nd ++ "\n" := by
  unfold Node.slfLine slfSpecNodeLine
  cases nd.time <;>
    simp only [List.cons_append, List.nil_append, List.append_nil, intercalateTab1,
      intercalateTab2, String.append_assoc, String.append_empty, emptyAppendStr]

theorem slfNodeLines_spec (nds : List Node) :
    String.join (nds.map Node.slfLine) = joinLines (nds.map slfSpecNodeLine) := by
  induction nds with
  | nil => rfl
  | cons nd rest ih =>
    simp only [List.map_cons]
    rw [string_join_cons, ih, joinLines, slfNodeLine_spec, String.append_assoc]

/-- Claim C6.  For every store whose link references lie inside the store,
the source `write_slf` produces exactly the serialization described by the
specification: the lines appear in the specified order with the specified
tokens, the scale line is emitted only when a field is present and omitted
entirely when neither is, node and link lines follow storage order, and
optional per-record fields are included exactly when present. -/
theorem c6_write_slf_refines (L : Lattice)
    (hv : ∀ link ∈ L.links, link.start_node < L.nodes.length ∧ link.end_node < L.nodes.length) :
    L.write_slf = some (slfSpec L) := by
  have hlines := slfLinkLines_spec L L.links 0 hv
    (fun i hi => by
      rw [Nat.zero_add]
      exact List.getD_eq_get _ _ hi)
  unfold Lattice.write_slf
  rw [hlines]
  show some _ = _
  unfold slfSpec slfSpecLines
  rw [joinLines_append, joinLines_append, joinLines_append, joinLines_append]
  rw [← slfNodeLines_spec]
  have hzero : (List.range L.links.length).map (fun i => slfSpecLinkLine L (0 + i))
      = (List.range L.links.length).map (slfSpecLinkLine L) := by
    apply List.map_congr_left
    intro i _
    rw [Nat.zero_add]
  rw [← hzero]
  cases L.lm_scale <;> cases L.wi_penalty <;>
    simp only [joinLines, List.cons_append, List.nil_append, List.append_nil,
      intercalateTab1, intercalateTab2, versionSplit, utteranceSplit, quoteNlSplit,
      tabLSplit, String.append_assoc, String.append_empty, emptyAppendStr]

/-! ### Specification-side description of the Kaldi output (claim C7)

These definitions transcribe section 4.4 of the specification: the pre-step
registering the reserved sentence-end label under id 0, the utterance line,
one line per link in node order then out-link order, with the final-link and
normal-link formats, and the closing blank line. -/

/-- The pre-step of the Kaldi writer: the mapping with the reserved
sentence-end label registered under id `0`. -/
def kaldiMap (m : String → Int) : String → Int :=
  fun w => if w = "!SENT_END" then 0 else m w

/-- Resolution of a link label: the epsilon label when the word is absent,
the reserved sentence-end label when it equals the sentence-end token. -/
def kaldiLabel : Option String → String
  | none => "<eps>"
  | some w => if w = "</s>" then "!SENT_END" else w

/-- Specification line for one link of the Kaldi output. -/
def kaldiSpecLinkLine (L : Lattice) (m : String → Int) (link : Link) : String :=
  let sid := (L.nodes.getD link.start_node default).id
  let lmc := floatRepr (-((link.lm_logprob.getD (PyNum.int 0)).toRat))
  let acc := floatRepr (-((link.ac_logprob.getD (PyNum.int 0)).toRat))
  if (L.nodes.getD link.end_node default).final then
    toString sid ++ " " ++ lmc ++ "," ++ acc ++ "," ++ link.transitions
  else
    toString sid ++ " " ++ toString ((L.nodes.getD link.end_node default).id) ++ " "
      ++ toString (m (kaldiLabel link.word)) ++ " "
      ++ lmc ++ "," ++ acc ++ "," ++ link.transitions

/-- Specification link lines: node storage order, then out-link storage
order, resolved through the updated mapping. -/
def kaldiSpecLines (L : Lattice) (m : String → Int) : List String :=
  L.nodes.bind
    (fun nd => nd.out_links.map
      (fun j => kaldiSpecLinkLine L (kaldiMap m) (L.links.getD j default)))

/-- The Kaldi serialization as described by the specification: utterance id
line, link lines, one closing blank line. -/
def kaldiSpec (L : Lattice) (m : String → Int) : String :=
  joinLines (optStr L.utterance_id :: kaldiSpecLines L m) ++ "\n"

theorem pyNeg_toRat (v : PyNum) : (pyNeg v).toRat = -(v.toRat) := by
  cases v <;> simp [pyNeg, PyNum.toRat]

theorem pyNegAdd0_pyStr (v : PyNum) :
    (pyAdd0 (pyNeg v)).pyStr = floatRepr (-(v.toRat)) := by
  show floatRepr ((pyNeg v).toRat) = floatRepr (-(v.toRat))
  rw [pyNeg_toRat]

theorem kaldiLinkLine_final (L : Lattice) (link : Link) (a lm2 : PyNum)
    (hs : link.start_node < L.nodes.length)
    (he : link.end_node < L.nodes.length)
    (ha : link.ac_logprob = some a) (hl : link.lm_logprob = some lm2)
    (hf : (L.nodes.get ⟨link.end_node, he⟩).final = true) :
    L.write_final_link link = some (kaldiSpecLinkLine L (kaldiMap (fun _ => (0 : Int))) link ++ "\n")
    ∧ ∀ m : String → Int,
      L.write_final_link link = some (kaldiSpecLinkLine L m link ++ "\n") := by
  have hna : L.nodes.get? link.start_node = some (L.nodes.get ⟨link.start_node, hs⟩) :=
    List.get?_eq_get hs
  have hnb : L.nodes.get? link.end_node = some (L.nodes.get ⟨link.end_node, he⟩) :=
    List.get?_eq_get he
  have hda : L.nodes.getD link.start_node default = L.nodes.get ⟨link.start_node, hs⟩ := by
    rw [List.getD_eq_get?, hna]; rfl
  have hdb : L.nodes.getD link.end_node default = L.nodes.get ⟨link.end_node, he⟩ := by
    rw [List.getD_eq_get?, hnb]; rfl
  have key : ∀ m : String → Int,
      L.write_final_link link = some (kaldiSpecLinkLine L m link ++ "\n") := by
    intro m
    simp only [Lattice.write_final_link, kaldiSpecLinkLine, hna, hnb, hda, hdb, ha, hl,
      Option.some_bind, if_pos hf, pyNegAdd0_pyStr, Option.getD_some,
      String.append_assoc]
    rfl
  exact ⟨key _, key⟩

theorem kaldiLinkLine_normal (L : Lattice) (m : String → Int) (link : Link) (a lm2 : PyNum)
    (hs : link.start_node < L.nodes.length)
    (he : link.end_node < L.nodes.length)
    (ha : link.ac_logprob = some a) (hl : link.lm_logprob = some lm2)
    (hf : (L.nodes.get ⟨link.end_node, he⟩).final = false) :
    L.write_normal_link m link = some (kaldiSpecLinkLine L m link ++ "\n") := by
  have hna : L.nodes.get? link.start_node = some (L.nodes.get ⟨link.start_node, hs⟩) :=
    List.get?_eq_get hs
  have hnb : L.nodes.get? link.end_node = some (L.nodes.get ⟨link.end_node, he⟩) :=
    List.get?_eq_get he
  have hda : L.nodes.getD link.start_node default = L.nodes.get ⟨link.start_node, hs⟩ := by
    rw [List.getD_eq_get?, hna]; rfl
  have hdb : L.nodes.getD link.end_node default = L.nodes.get ⟨link.end_node, he⟩ := by
    rw [List.getD_eq_get?, hnb]; rfl
  have hfneg : ¬((L.nodes.get ⟨link.end_node, he⟩).final = true) := by
    rw [hf]; exact Bool.false_ne_true
  cases hw : link.word with
  | none =>
    simp only [Lattice.write_normal_link, kaldiSpecLinkLine, kaldiLabel, hna, hnb, hda, hdb,
      ha, hl, hw, Option.some_bind, if_neg hfneg,
      pyNegAdd0_pyStr, Option.getD_some, String.append_assoc]
    rfl
  | some w =>
    simp only [Lattice.write_normal_link, kaldiSpecLinkLine, kaldiLabel, hna, hnb, hda, hdb,
      ha, hl, hw, Option.some_bind, if_neg hfneg,
      pyNegAdd0_pyStr, Option.getD_some, String.append_assoc]
    rfl

/-- Hypothesis bundle for the Kaldi writer: every out-link index of every
node denotes a link of the store whose node references are in range and
whose scores are present. -/
def KaldiReady (L : Lattice) : Prop :=
  ∀ nd ∈ L.nodes, ∀ j ∈ nd.out_links, j < L.links.length
    ∧ (L.links.getD j default).start_node < L.nodes.length
    ∧ (L.links.getD j default).end_node < L.nodes.length
    ∧ (L.links.getD j default).ac_logprob.isSome = true
    ∧ (L.links.getD j default).lm_logprob.isSome = true

instance (L : Lattice) : Decidable (KaldiReady L) := by
  unfold KaldiReady; infer_instance

theorem kaldiLinkBlock_spec (L : Lattice) (m : String → Int) :
    ∀ js : List ℕ,
      (∀ j ∈ js, j < L.links.length
        ∧ (L.links.getD j default).start_node < L.nodes.length
        ∧ (L.links.getD j default).end_node < L.nodes.length
        ∧ (L.links.getD j default).ac_logprob.isSome = true
        ∧ (L.links.getD j default).lm_logprob.isSome = true) →
      L.kaldiLinkBlock m js
        = some (joinLines (js.map (fun j => kaldiSpecLinkLine L m (L.links.getD j default)))) := by
  intro js
  induction js with
  | nil => intro _; rfl
  | cons j rest ih =>
    intro hv
    obtain ⟨hj, hsr, her, hac, hlm⟩ := hv j (List.mem_cons_self _ _)
    set link := L.links.getD j default with hlink
    have hget : L.links.get? j = some link := by
      rw [hlink, List.getD_eq_get?, List.get?_eq_get hj]; rfl
    obtain ⟨a, ha⟩ := Option.isSome_iff_exists.mp hac
    obtain ⟨lm2, hl⟩ := Option.isSome_iff_exists.mp hlm
    have hnb : L.nodes.get? link.end_node = some (L.nodes.get ⟨link.end_node, her⟩) :=
      List.get?_eq_get her
    have hrest := ih (fun j2 hj2 => hv j2 (List.mem_cons_of_mem _ hj2))
    cases hfin : (L.nodes.get ⟨link.end_node, her⟩).final with
    | true =>
      have hline := (kaldiLinkLine_final L link a lm2 hsr her ha hl hfin).2 m
      simp only [Lattice.kaldiLinkBlock, hget, hnb, Option.bind_eq_bind, Option.some_bind,
        if_pos hfin, hline, hrest, List.map_cons, joinLines, String.append_assoc]
      rfl
    | false =>
      have hline := kaldiLinkLine_normal L m link a lm2 hsr her ha hl hfin
      have hfneg : ¬((L.nodes.get ⟨link.end_node, her⟩).final = true) := by
        rw [hfin]; exact Bool.false_ne_true
      simp only [Lattice.kaldiLinkBlock, hget, hnb, Option.bind_eq_bind, Option.some_bind,
        if_neg hfneg, hline, hrest, List.map_cons, joinLines, String.append_assoc]
      rfl

theorem kaldiNodeBlock_spec (L : Lattice) (m : String → Int) :
    ∀ nds : List Node,
      (∀ nd ∈ nds, ∀ j ∈ nd.out_links, j < L.links.length
        ∧ (L.links.getD j default).start_node < L.nodes.length
        ∧ (L.links.getD j default).end_node < L.nodes.length
        ∧ (L.links.getD j default).ac_logprob.isSome = true
        ∧ (L.links.getD j default).lm_logprob.isSome = true) →
      L.kaldiNodeBlock m nds
        = some (joinLines (nds.bind
            (fun nd => nd.out_links.map
              (fun j => kaldiSpecLinkLine L m (L.links.getD j default))))) := by
  intro nds
  induction nds with
  | nil => intro _; rfl
  | cons nd rest ih =>
    intro hv
    have hblock := kaldiLinkBlock_spec L m nd.out_links (hv nd (List.mem_cons_self _ _))
    have hrest := ih (fun nd2 h2 => hv nd2 (List.mem_cons_of_mem _ h2))
    simp only [Lattice.kaldiNodeBlock, hblock, hrest, Option.bind_eq_bind, Option.some_bind,
      List.cons_bind, joinLines_append]
    rfl

/-- Claim C7.  For every ready store and mapping, the Kaldi writer equals
the serialization described by the specification: the reserved sentence-end
label is registered under id 0 in the mapping before any link line is
produced (so a sentence-end link resolves to id 0 whatever the incoming
mapping said), the utterance line comes first, links follow node storage
order then out-link storage order with the final-link and normal-link
formats, and one blank line closes the block. -/
theorem c7_write_kaldi_refines (L : Lattice) (m : String → Int) (hv : KaldiReady L) :
    L.write_kaldi m = some (kaldiSpec L m, kaldiMap m)
    ∧ kaldiMap m "!SENT_END" = 0
    ∧ kaldiMap m (kaldiLabel (some "</s>")) = 0
    ∧ (∀ w, w ≠ "!SENT_END" → kaldiMap m w = m w) := by
  refine ⟨?_, rfl, rfl, fun w hw => if_neg hw⟩
  have hbody := kaldiNodeBlock_spec L (kaldiMap m) L.nodes hv
  unfold Lattice.write_kaldi
  show (L.kaldiNodeBlock (kaldiMap m) L.nodes).bind _ = _
  rw [hbody]
  show some _ = some _
  unfold kaldiSpec kaldiSpecLines
  simp only [joinLines, String.append_assoc]
  rfl

/-- Witness for claim C6 at the round-trip scenario store. -/
theorem c6_write_slf_refines_witness :
    (∀ link ∈ latScenario.links,
      link.start_node < latScenario.nodes.length ∧ link.end_node < latScenario.nodes.length)
    ∧ latScenario.write_slf = some (slfSpec latScenario) :=
  ⟨by decide, c6_write_slf_refines latScenario (by decide)⟩

/-- The Kaldi scenario of the specification: the same two-node graph with
the end node marked final. -/
def latFinal : Lattice :=
  { nodes := [mkNode 0 [0] [] none,
              { id := 1, out_links := [], in_links := [0], time := none,
                best_logprob := none, final := true }],
    links := [{ start_node := 0, end_node := 1, word := some "cat",
                ac_logprob := some (pyFloat (-3) 2), lm_logprob := some (pyFloat (-1) 2),
                transitions := "3_5_8" }],
    initial_node := some 0, utterance_id := some "utt1",
    lm_scale := none, wi_penalty := none }

/-- Witness for claim C7 at the Kaldi scenario store. -/
theorem c7_write_kaldi_refines_witness :
    KaldiReady latFinal
    ∧ (latFinal.write_kaldi (fun _ => 5)
        = some (kaldiSpec latFinal (fun _ => 5), kaldiMap (fun _ => 5))
      ∧ kaldiMap (fun _ => (5 : Int)) "!SENT_END" = 0
      ∧ kaldiMap (fun _ => (5 : Int)) (kaldiLabel (some "</s>")) = 0
      ∧ (∀ w, w ≠ "!SENT_END" → kaldiMap (fun _ => (5 : Int)) w = (fun _ => (5 : Int)) w)) :=
  ⟨by decide, c7_write_kaldi_refines latFinal (fun _ => 5) (by decide)⟩

/-! ### Claim C8: cost negation and float coercion -/

theorem floatReprNN_split (r : ℚ) :
    floatReprNN r = toString (r.num.toNat / r.den)
      ++ "." ++ (if fracDigits (r.num.toNat % r.den) r.den 40 = "" then "0"
                 else fracDigits (r.num.toNat % r.den) r.den 40) := rfl

/-- Every float rendering contains a decimal point, with at least one digit
after it. -/
theorem floatRepr_has_dot (q : ℚ) : ∃ s1 s2, floatRepr q = s1 ++ "." ++ s2 := by
  unfold floatRepr
  by_cases h : q < 0
  · rw [if_pos h, floatReprNN_split]
    refine ⟨"-" ++ toString ((-q).num.toNat / (-q).den),
      (if fracDigits ((-q).num.toNat % (-q).den) (-q).den 40 = "" then "0"
       else fracDigits ((-q).num.toNat % (-q).den) (-q).den 40), ?_⟩
    simp [String.append_assoc]
  · rw [if_neg h, floatReprNN_split]
    exact ⟨toString (q.num.toNat / q.den), _, rfl⟩

/-- Claim C8.  The two Kaldi cost fields are the language-model field
followed by the acoustic field, each the float rendering of the arithmetic
negation of the stored log probability; the SLF `a=` and `l=` fields are the
float rendering of the stored values; and a float rendering always carries a
decimal point, also for a stored integral value. -/
theorem c8_cost_negation (L : Lattice) (m : String → Int) (j : ℕ) (link : Link)
    (a lm2 : PyNum) (na nb : Node)
    (hna : L.nodes.get? link.start_node = some na)
    (hnb : L.nodes.get? link.end_node = some nb)
    (ha : link.ac_logprob = some a) (hl : link.lm_logprob = some lm2) :
    L.write_final_link link
      = some (toString na.id ++ " " ++ floatRepr (-(lm2.toRat)) ++ ","
          ++ floatRepr (-(a.toRat)) ++ "," ++ link.transitions ++ "\n")
    ∧ L.write_normal_link m link
      = some (toString na.id ++ " " ++ toString nb.id ++ " "
          ++ toString (m (kaldiLabel link.word)) ++ " " ++ floatRepr (-(lm2.toRat)) ++ ","
          ++ floatRepr (-(a.toRat)) ++ "," ++ link.transitions ++ "\n")
    ∧ (∃ pre, L.slfLinkLine j link
        = some (pre ++ "\t" ++ "a=" ++ floatRepr a.toRat
            ++ "\t" ++ "l=" ++ floatRepr lm2.toRat ++ "\n"))
    ∧ (∃ s1 s2, floatRepr (-(lm2.toRat)) = s1 ++ "." ++ s2)
    ∧ (∃ s1 s2, floatRepr (-(a.toRat)) = s1 ++ "." ++ s2)
    ∧ (∃ s1 s2, floatRepr (a.toRat) = s1 ++ "." ++ s2)
    ∧ (∃ s1 s2, floatRepr (lm2.toRat) = s1 ++ "." ++ s2) := by
  refine ⟨?_, ?_, ?_, floatRepr_has_dot _, floatRepr_has_dot _,
    floatRepr_has_dot _, floatRepr_has_dot _⟩
  · simp only [Lattice.write_final_link, hna, ha, hl, Option.bind_eq_bind, Option.some_bind,
      pyNegAdd0_pyStr, String.append_assoc]
    rfl
  · cases hw : link.word with
    | none =>
      simp only [Lattice.write_normal_link, kaldiLabel, hna, hnb, ha, hl, hw,
        Option.bind_eq_bind, Option.some_bind, pyNegAdd0_pyStr, String.append_assoc]
      rfl
    | some w =>
      simp only [Lattice.write_normal_link, kaldiLabel, hna, hnb, ha, hl, hw,
        Option.bind_eq_bind, Option.some_bind, pyNegAdd0_pyStr, String.append_assoc]
      rfl
  · refine ⟨"J=" ++ toString j ++ "\t" ++ "S=" ++ toString na.id ++ "\t" ++ "E="
      ++ toString nb.id ++ "\t" ++ (match link.word with
          | none => "W=!NULL"
          | some w => "W=" ++ w), ?_⟩
    simp only [Lattice.slfLinkLine, hna, hnb, ha, hl]
    cases link.word <;>
      simp only [List.cons_append, List.nil_append, List.append_nil, intercalateTab6,
        PyNum.pyStr, pyAdd0, String.append_assoc]

/-- The link of the round-trip scenario as the source constructor builds
it. -/
def wLink : Link :=
  Link.init 0 1 (some "cat") (some (pyFloat (-3) 2)) (some (pyFloat (-1) 2)) ""

/-- Witness for claim C8 at the round-trip scenario store. -/
theorem c8_cost_negation_witness :
    (latScenario.nodes.get? wLink.start_node = some (mkNode 0 [0] [] none)
      ∧ latScenario.nodes.get? wLink.end_node = some (mkNode 1 [] [0] none)
      ∧ wLink.ac_logprob = some (pyFloat (-3) 2)
      ∧ wLink.lm_logprob = some (pyFloat (-1) 2))
    ∧ (latScenario.write_final_link wLink
        = some (toString (mkNode 0 [0] [] none).id ++ " "
            ++ floatRepr (-((pyFloat (-1) 2).toRat)) ++ ","
            ++ floatRepr (-((pyFloat (-3) 2).toRat)) ++ "," ++ wLink.transitions ++ "\n")
      ∧ latScenario.write_normal_link (fun _ => 3) wLink
        = some (toString (mkNode 0 [0] [] none).id ++ " " ++ toString (mkNode 1 [] [0] none).id ++ " "
            ++ toString ((fun _ => (3 : Int)) (kaldiLabel wLink.word)) ++ " "
            ++ floatRepr (-((pyFloat (-1) 2).toRat)) ++ ","
            ++ floatRepr (-((pyFloat (-3) 2).toRat)) ++ "," ++ wLink.transitions ++ "\n")
      ∧ (∃ pre, latScenario.slfLinkLine 0 wLink
          = some (pre ++ "\t" ++ "a=" ++ floatRepr ((pyFloat (-3) 2).toRat)
              ++ "\t" ++ "l=" ++ floatRepr ((pyFloat (-1) 2).toRat) ++ "\n"))
      ∧ (∃ s1 s2, floatRepr (-((pyFloat (-1) 2).toRat)) = s1 ++ "." ++ s2)
      ∧ (∃ s1 s2, floatRepr (-((pyFloat (-3) 2).toRat)) = s1 ++ "." ++ s2)
      ∧ (∃ s1 s2, floatRepr ((pyFloat (-3) 2).toRat) = s1 ++ "." ++ s2)
      ∧ (∃ s1 s2, floatRepr ((pyFloat (-1) 2).toRat) = s1 ++ "." ++ s2)) :=
  ⟨⟨rfl, rfl, rfl, rfl⟩,
    c8_cost_negation latScenario (fun _ => 3) 0 wLink (pyFloat (-3) 2) (pyFloat (-1) 2)
      (mkNode 0 [0] [] none) (mkNode 1 [] [0] none) rfl rfl rfl rfl⟩

/-! ### Counting infrastructure for the topological sort -/

/-- Start node index recorded on the link with the given index. -/
def startIdx (L : Lattice) (k : ℕ) : ℕ := (L.links.getD k default).start_node

/-- End node index recorded on the link with the given index. -/
def endIdx (L : Lattice) (k : ℕ) : ℕ := (L.links.getD k default).end_node

/-- In-degree of node `v`: the number of links ending at `v`. -/
def inDegF (L : Lattice) (v : ℕ) : ℕ :=
  ((List.range L.links.length).filter (fun k => endIdx L k == v)).length

/-- Number of links ending at `v` whose start node has been visited. -/
def procInF (L : Lattice) (res : List ℕ) (v : ℕ) : ℕ :=
  ((List.range L.links.length).filter
    (fun k => endIdx L k == v && decide (startIdx L k ∈ res))).length

/-- Number of links from `u` to `v`. -/
def parEdges (L : Lattice) (u v : ℕ) : ℕ :=
  ((List.range L.links.length).filter
    (fun k => startIdx L k == u && endIdx L k == v)).length

/-- Number of links among the given link indices ending at `v`. -/
def countEnds (L : Lattice) (ls : List ℕ) (v : ℕ) : ℕ :=
  (ls.filter (fun k => endIdx L k == v)).length

/-- Number of strictly positive entries of the in-degree array. -/
def posCount (d : List Int) : ℕ := d.countP (fun x => decide (0 < x))

/-- Well-formedness of a store, as established by its append-only
construction: node ids equal positions, the adjacency lists list exactly the
link indices with the matching endpoint, without duplicates, and link
references stay inside the store. -/
def WF (L : Lattice) : Prop :=
  (∀ i (h : i < L.nodes.length), (L.nodes.get ⟨i, h⟩).id = i)
  ∧ (∀ i (h : i < L.nodes.length), (L.nodes.get ⟨i, h⟩).out_links.Nodup
      ∧ (∀ k ∈ (L.nodes.get ⟨i, h⟩).out_links, k < L.links.length ∧ startIdx L k = i)
      ∧ (∀ k (hk : k < L.links.length), startIdx L k = i → k ∈ (L.nodes.get ⟨i, h⟩).out_links))
  ∧ (∀ i (h : i < L.nodes.length), (L.nodes.get ⟨i, h⟩).in_links.Nodup
      ∧ (∀ k ∈ (L.nodes.get ⟨i, h⟩).in_links, k < L.links.length ∧ endIdx L k = i)
      ∧ (∀ k (hk : k < L.links.length), endIdx L k = i → k ∈ (L.nodes.get ⟨i, h⟩).in_links))
  ∧ (∀ k (hk : k < L.links.length), startIdx L k < L.nodes.length ∧ endIdx L k < L.nodes.length)

instance (L : Lattice) : Decidable (WF L) := by
  unfold WF; infer_instance

theorem nodup_length_eq_of_mem_iff {l1 l2 : List ℕ} (h1 : l1.Nodup) (h2 : l2.Nodup)
    (hmem : ∀ x, x ∈ l1 ↔ x ∈ l2) : l1.length = l2.length := by
  rw [← List.toFinset_card_of_nodup h1, ← List.toFinset_card_of_nodup h2]
  congr 1
  ext x
  simp only [List.mem_toFinset]
  exact hmem x

theorem length_filter_le_of_imp {p q : ℕ → Bool} :
    ∀ l : List ℕ, (∀ a ∈ l, p a = true → q a = true) →
      (l.filter p).length ≤ (l.filter q).length := by
  intro l
  induction l with
  | nil => intro _; simp
  | cons a t ih =>
    intro h
    have ht := ih (fun b hb => h b (List.mem_cons_of_mem a hb))
    by_cases hp : p a = true
    · have hq := h a (List.mem_cons_self a t) hp
      simp [List.filter_cons, hp, hq]
      omega
    · by_cases hq : q a = true
      · simp [List.filter_cons, hp, hq]
        omega
      · simp [List.filter_cons, hp, hq]
        exact ht

theorem filter_length_eq_imp {p q : ℕ → Bool} :
    ∀ l : List ℕ, (∀ a ∈ l, q a = true → p a = true) →
      (l.filter p).length = (l.filter q).length →
      ∀ a ∈ l, p a = true → q a = true := by
  intro l
  induction l with
  | nil => intro _ _ a ha; exact absurd ha (List.not_mem_nil a)
  | cons b t ih =>
    intro himp hlen a ha hp
    have himpt : ∀ x ∈ t, q x = true → p x = true :=
      fun x hx => himp x (List.mem_cons_of_mem b hx)
    rcases List.mem_cons.mp ha with rfl | hat
    · by_contra hq
      have hqb : q a = false := Bool.eq_false_iff.mpr hq
      have hle := length_filter_le_of_imp t himpt
      rw [List.filter_cons, List.filter_cons] at hlen
      simp [hp, hqb] at hlen
      omega
    · by_cases hqb : q b = true
      · have hpb := himp b (List.mem_cons_self b t) hqb
        rw [List.filter_cons, List.filter_cons] at hlen
        simp [hpb, hqb] at hlen
        exact ih himpt hlen a hat hp
      · rw [List.filter_cons, List.filter_cons] at hlen
        by_cases hpb : p b = true
        · simp [hpb, Bool.eq_false_iff.mpr hqb] at hlen
          have hle := length_filter_le_of_imp t himpt
          omega
        · simp [Bool.eq_false_iff.mpr hpb, Bool.eq_false_iff.mpr hqb] at hlen
          exact ih himpt hlen a hat hp

theorem length_filter_or_disjoint {p q : ℕ → Bool} :
    ∀ l : List ℕ, (∀ a ∈ l, ¬(p a = true ∧ q a = true)) →
      (l.filter (fun a => p a || q a)).length = (l.filter p).length + (l.filter q).length := by
  intro l
  induction l with
  | nil => intro _; simp
  | cons a t ih =>
    intro h
    have ht := ih (fun b hb => h b (List.mem_cons_of_mem a hb))
    by_cases hp : p a = true
    · have hq : q a = false := by
        by_contra hq2
        exact h a (List.mem_cons_self a t) ⟨hp, Bool.not_eq_false _ ▸ (by simpa using hq2)⟩
      simp [List.filter_cons, hp, hq, ht]
      omega
    · have hp2 : p a = false := Bool.eq_false_iff.mpr hp
      by_cases hq : q a = true
      · simp [List.filter_cons, hp2, hq, ht]
        omega
      · have hq2 : q a = false := Bool.eq_false_iff.mpr hq
        simp [List.filter_cons, hp2, hq2, ht]

theorem edge_iff_idx (L : Lattice) (u v : ℕ) :
    EdgeL L u v ↔ ∃ k, k < L.links.length ∧ startIdx L k = u ∧ endIdx L k = v := by
  constructor
  · rintro ⟨link, hmem, hsu, hev⟩
    obtain ⟨⟨k, hk⟩, hget⟩ := List.mem_iff_get.mp hmem
    refine ⟨k, hk, ?_, ?_⟩
    · show (L.links.getD k default).start_node = u
      rw [List.getD_eq_get?, List.get?_eq_get hk, hget]
      exact hsu
    · show (L.links.getD k default).end_node = v
      rw [List.getD_eq_get?, List.get?_eq_get hk, hget]
      exact hev
  · rintro ⟨k, hk, hsu, hev⟩
    refine ⟨L.links.get ⟨k, hk⟩, List.get_mem _ _ _, ?_, ?_⟩
    · rw [← hsu]
      show _ = (L.links.getD k default).start_node
      rw [List.getD_eq_get?, List.get?_eq_get hk]
      rfl
    · rw [← hev]
      show _ = (L.links.getD k default).end_node
      rw [List.getD_eq_get?, List.get?_eq_get hk]
      rfl

theorem procIn_nil (L : Lattice) (v : ℕ) : procInF L [] v = 0 := by
  unfold procInF
  simp

theorem procIn_le (L : Lattice) (res : List ℕ) (v : ℕ) :
    procInF L res v ≤ inDegF L v := by
  apply length_filter_le_of_imp
  intro k _ h
  simp only [Bool.and_eq_true] at h
  exact h.1

theorem procIn_append (L : Lattice) (res : List ℕ) (u v : ℕ) (hu : u ∉ res) :
    procInF L (res ++ [u]) v = procInF L res v + parEdges L u v := by
  unfold procInF parEdges
  have hcongr : (List.range L.links.length).filter
        (fun k => endIdx L k == v && decide (startIdx L k ∈ res ++ [u]))
      = (List.range L.links.length).filter
        (fun k => (endIdx L k == v && decide (startIdx L k ∈ res))
          || (startIdx L k == u && endIdx L k == v)) := by
    apply List.filter_congr
    intro k _
    by_cases h1 : endIdx L k = v <;> by_cases h2 : startIdx L k ∈ res <;>
      by_cases h3 : startIdx L k = u <;>
      simp [h1, h2, h3]
  rw [hcongr]
  apply length_filter_or_disjoint
  intro k _
  rintro ⟨h1, h2⟩
  simp only [Bool.and_eq_true, beq_iff_eq, decide_eq_true_eq] at h1 h2
  rw [h2.1] at h1
  exact hu h1.2

theorem procIn_parEdges_le (L : Lattice) (res : List ℕ) (u v : ℕ) (hu : u ∉ res) :
    procInF L res v + parEdges L u v ≤ inDegF L v := by
  have hdisj : ∀ k ∈ List.range L.links.length,
      ¬((endIdx L k == v && decide (startIdx L k ∈ res)) = true
        ∧ (startIdx L k == u && endIdx L k == v) = true) := by
    intro k _
    rintro ⟨h1, h2⟩
    simp only [Bool.and_eq_true, beq_iff_eq, decide_eq_true_eq] at h1 h2
    rw [h2.1] at h1
    exact hu h1.2
  have hsum := length_filter_or_disjoint (List.range L.links.length) hdisj
  unfold procInF parEdges inDegF
  rw [← hsum]
  apply length_filter_le_of_imp
  intro k _ h
  simp only [Bool.or_eq_true, Bool.and_eq_true] at h
  rcases h with h | h
  · exact h.1
  · exact h.2

theorem procIn_eq_full (L : Lattice) (res : List ℕ) (v : ℕ)
    (h : procInF L res v = inDegF L v) :
    ∀ k, k < L.links.length → endIdx L k = v → startIdx L k ∈ res := by
  intro k hk hkv
  have := filter_length_eq_imp (p := fun k => endIdx L k == v)
    (q := fun k => endIdx L k == v && decide (startIdx L k ∈ res))
    (List.range L.links.length)
    (fun a _ ha => by
      simp only [Bool.and_eq_true] at ha
      exact ha.1)
    (by
      unfold procInF inDegF at h
      omega)
    k (List.mem_range.mpr hk)
    (by simp [hkv])
  simp only [Bool.and_eq_true, decide_eq_true_eq] at this
  exact this.2

theorem procIn_lt_ex (L : Lattice) (res : List ℕ) (v : ℕ)
    (h : procInF L res v < inDegF L v) :
    ∃ k, k < L.links.length ∧ endIdx L k = v ∧ startIdx L k ∉ res := by
  by_contra hcon
  push_neg at hcon
  have heq : procInF L res v = inDegF L v := by
    have hle := procIn_le L res v
    have : inDegF L v ≤ procInF L res v := by
      unfold procInF inDegF
      apply length_filter_le_of_imp
      intro k hk hkv
      simp only [beq_iff_eq] at hkv
      have := hcon k (List.mem_range.mp hk) hkv
      simp [hkv, this]
    omega
  omega

theorem inDeg_pos_of_edge (L : Lattice) (u v : ℕ) (h : EdgeL L u v) :
    0 < inDegF L v := by
  obtain ⟨k, hk, _, hev⟩ := (edge_iff_idx L u v).mp h
  have hmem : k ∈ (List.range L.links.length).filter (fun k => endIdx L k == v) := by
    simp [List.mem_filter, List.mem_range, hk, hev]
  unfold inDegF
  exact List.length_pos.mpr (fun hnil => by rw [hnil] at hmem; exact List.not_mem_nil k hmem)

theorem edge_of_parEdges_pos (L : Lattice) (u v : ℕ) (h : 0 < parEdges L u v) :
    EdgeL L u v := by
  unfold parEdges at h
  obtain ⟨k, hkmem⟩ := List.exists_mem_of_length_pos h
  rw [List.mem_filter, List.mem_range] at hkmem
  obtain ⟨hk, hkp⟩ := hkmem
  simp only [Bool.and_eq_true, beq_iff_eq] at hkp
  exact (edge_iff_idx L u v).mpr ⟨k, hk, hkp.1, hkp.2⟩

theorem inLinks_length_eq (L : Lattice) (hWF : WF L) (v : ℕ) (hv : v < L.nodes.length) :
    (L.nodes.get ⟨v, hv⟩).in_links.length = inDegF L v := by
  obtain ⟨_, _, hin, _⟩ := hWF
  obtain ⟨hnd, hmem1, hmem2⟩ := hin v hv
  apply nodup_length_eq_of_mem_iff hnd (List.Nodup.filter _ (List.nodup_range _))
  intro k
  rw [List.mem_filter, List.mem_range]
  constructor
  · intro hk
    obtain ⟨h1, h2⟩ := hmem1 k hk
    exact ⟨h1, by simp [h2]⟩
  · rintro ⟨h1, h2⟩
    simp only [beq_iff_eq] at h2
    exact hmem2 k h1 h2

theorem countEnds_out (L : Lattice) (hWF : WF L) (u : ℕ) (hu : u < L.nodes.length) (v : ℕ) :
    countEnds L (L.nodes.get ⟨u, hu⟩).out_links v = parEdges L u v := by
  obtain ⟨_, hout, _, _⟩ := hWF
  obtain ⟨hnd, hmem1, hmem2⟩ := hout u hu
  apply nodup_length_eq_of_mem_iff (List.Nodup.filter _ hnd)
    (List.Nodup.filter _ (List.nodup_range _))
  intro k
  rw [List.mem_filter, List.mem_filter, List.mem_range]
  constructor
  · rintro ⟨h1, h2⟩
    obtain ⟨h3, h4⟩ := hmem1 k h1
    exact ⟨h3, by simp only [Bool.and_eq_true, beq_iff_eq] at h2 ⊢; exact ⟨h4, by simpa using h2⟩⟩
  · rintro ⟨h1, h2⟩
    simp only [Bool.and_eq_true, beq_iff_eq] at h2
    exact ⟨hmem2 k h1 h2.1, by simp [h2.2]⟩

theorem countEnds_cons (L : Lattice) (k : ℕ) (ls : List ℕ) (v : ℕ) :
    countEnds L (k :: ls) v
      = countEnds L ls v + (if endIdx L k = v then 1 else 0) := by
  unfold countEnds
  rw [List.filter_cons]
  by_cases h : endIdx L k = v
  · simp [h]
  · simp [h]

theorem posCount_set :
    ∀ (d : List Int) (i : ℕ) (x y : Int), d.get? i = some y →
      posCount (d.set i x) + (if 0 < y then 1 else 0)
        = posCount d + (if 0 < x then 1 else 0) := by
  intro d
  induction d with
  | nil => intro i x y h; simp at h
  | cons a t ih =>
    intro i x y h
    cases i with
    | zero =>
      have hy : a = y := by simpa using h
      subst hy
      unfold posCount
      simp only [List.set_cons_zero, List.countP_cons]
      by_cases h1 : 0 < x <;> by_cases h2 : 0 < a <;> simp [h1, h2] <;> omega
    | succ i2 =>
      have ht := ih i2 x y (by simpa using h)
      unfold posCount at ht ⊢
      simp only [List.set_cons_succ, List.countP_cons]
      by_cases h2 : 0 < a <;> simp [h2] <;> omega

theorem processLinks_count (L : Lattice) :
    ∀ (ls q : List ℕ) (d : List Int) (q2 : List ℕ) (d2 : List Int),
      processLinks L ls q d = .ok (q2, d2) →
      q2.length + posCount d2 ≤ q.length + posCount d := by
  intro ls
  induction ls with
  | nil =>
    intro q d q2 d2 h
    unfold processLinks at h
    cases h
    omega
  | cons k rest ih =>
    intro q d q2 d2 h
    unfold processLinks at h
    cases hget : L.links.get? k with
    | none => simp only [hget] at h; exact Except.noConfusion h
    | some link =>
      simp only [hget] at h
      cases hnd : L.nodes.get? link.end_node with
      | none => simp only [hnd] at h; exact Except.noConfusion h
      | some nd =>
        simp only [hnd] at h
        cases hx : d.get? nd.id with
        | none => simp only [hx] at h; exact Except.noConfusion h
        | some x =>
          simp only [hx] at h
          by_cases h1 : x - 1 = 0
          · rw [if_pos h1] at h
            have hrec := ih _ _ _ _ h
            have hset := posCount_set d nd.id (x - 1) x hx
            have h01 : (if (0 : Int) < x then 1 else 0) = 1 := if_pos (by omega)
            have h02 : (if (0 : Int) < x - 1 then 1 else 0) = 0 := if_neg (by omega)
            rw [h01, h02] at hset
            have hqlen : (sortQueue L (q ++ [link.end_node])).length = q.length + 1 := by
              rw [sortQueue_length, List.length_append]
              rfl
            omega
          · rw [if_neg h1] at h
            by_cases h2 : x - 1 < 0
            · rw [if_pos h2] at h
              exact Except.noConfusion h
            · rw [if_neg h2] at h
              have hrec := ih _ _ _ _ h
              have hset := posCount_set d nd.id (x - 1) x hx
              have h01 : (if (0 : Int) < x then 1 else 0) = 1 := if_pos (by omega)
              have h02 : (if (0 : Int) < x - 1 then 1 else 0) = 1 := if_pos (by omega)
              rw [h01, h02] at hset
              omega

/-- Behaviour of the inner link loop on a well-formed store: with the
in-degree array holding `D`, and no in-degree pushed below zero, the loop
succeeds, subtracts the per-target link counts from the array, and enqueues
exactly the targets whose count reaches their in-degree value. -/
theorem processLinks_spec (L : Lattice) (hWF : WF L) :
    ∀ (ls q : List ℕ) (d : List Int) (D : ℕ → Int),
      (∀ k ∈ ls, k < L.links.length) →
      d.length = L.nodes.length →
      (∀ v, v < L.nodes.length → d.get? v = some (D v)) →
      (∀ v, v < L.nodes.length → (countEnds L ls v : Int) ≤ D v) →
      ∃ q2 d2, processLinks L ls q d = .ok (q2, d2)
        ∧ d2.length = L.nodes.length
        ∧ (∀ v, v < L.nodes.length → d2.get? v = some (D v - countEnds L ls v))
        ∧ (∀ x, x ∈ q2 ↔ (x ∈ q ∨ (x < L.nodes.length ∧ 0 < countEnds L ls x
            ∧ D x = countEnds L ls x)))
        ∧ (q.Nodup → (∀ x ∈ q, ¬(0 < countEnds L ls x ∧ D x = countEnds L ls x)) → q2.Nodup) := by
  obtain ⟨hids, _, _, hrange⟩ := hWF
  intro ls
  induction ls with
  | nil =>
    intro q d D _ hdlen hd _
    refine ⟨q, d, rfl, hdlen, ?_, ?_, ?_⟩
    · intro v hv
      rw [hd v hv]
      congr 1
      have : countEnds L [] v = 0 := rfl
      rw [this]
      omega
    · intro x
      have : countEnds L [] x = 0 := rfl
      simp [this]
    · intro hq _
      exact hq
  | cons k rest ih =>
    intro q d D hls hdlen hd hcnt
    have hk : k < L.links.length := hls k (List.mem_cons_self _ _)
    have hget : L.links.get? k = some (L.links.get ⟨k, hk⟩) := List.get?_eq_get hk
    have hlinkend : (L.links.get ⟨k, hk⟩).end_node = endIdx L k := by
      show _ = (L.links.getD k default).end_node
      rw [List.getD_eq_get?, hget]
      rfl
    have hek : endIdx L k < L.nodes.length := (hrange k hk).2
    have hnd : L.nodes.get? (endIdx L k) = some (L.nodes.get ⟨endIdx L k, hek⟩) :=
      List.get?_eq_get hek
    have hndid : (L.nodes.get ⟨endIdx L k, hek⟩).id = endIdx L k := hids _ hek
    have hx : d.get? (endIdx L k) = some (D (endIdx L k)) := hd _ hek
    -- the count of the whole list at the decrement target is at least one
    have hcself : countEnds L (k :: rest) (endIdx L k) = countEnds L rest (endIdx L k) + 1 := by
      rw [countEnds_cons]
      simp
    have hcother : ∀ v, v ≠ endIdx L k → countEnds L (k :: rest) v = countEnds L rest v := by
      intro v hv
      rw [countEnds_cons, if_neg (fun h => hv h.symm)]
      omega
    set D2 : ℕ → Int := fun v => if v = endIdx L k then D v - 1 else D v with hD2
    set d2 : List Int := d.set (endIdx L k) (D (endIdx L k) - 1) with hd2def
    have hd2len : d2.length = L.nodes.length := by
      rw [hd2def, List.length_set]
      exact hdlen
    have hd2 : ∀ v, v < L.nodes.length → d2.get? v = some (D2 v) := by
      intro v hv
      by_cases hveq : v = endIdx L k
      · subst hveq
        rw [hd2def, List.get?_set_eq_of_lt _ (hdlen ▸ hek), hD2]
        simp
      · rw [hd2def, List.get?_set_ne _ d (fun h => hveq h.symm), hd v hv, hD2]
        simp [hveq]
    have hcnt2 : ∀ v, v < L.nodes.length → (countEnds L rest v : Int) ≤ D2 v := by
      intro v hv
      have := hcnt v hv
      by_cases hveq : v = endIdx L k
      · subst hveq
        rw [hcself] at this
        simp only [hD2, if_pos rfl]
        push_cast at this ⊢
        omega
      · rw [hcother v hveq] at this
        simpa [hD2, hveq] using this
    have hls2 : ∀ k2 ∈ rest, k2 < L.links.length :=
      fun k2 h2 => hls k2 (List.mem_cons_of_mem _ h2)
    -- unfold one step of the loop
    by_cases hzero : D (endIdx L k) - 1 = 0
    · -- the decrement reaches zero: the end node is enqueued
      have hone : D (endIdx L k) = 1 := by omega
      have hrest0 : countEnds L rest (endIdx L k) = 0 := by
        have := hcnt (endIdx L k) hek
        rw [hcself] at this
        push_cast at this
        omega
      obtain ⟨q2, d3, hrun, hlen3, hval3, hmem3, hnd3⟩ :=
        ih (sortQueue L (q ++ [endIdx L k])) d2 D2 hls2 hd2len hd2 hcnt2
      refine ⟨q2, d3, ?_, hlen3, ?_, ?_, ?_⟩
      · unfold processLinks
        simp only [hget, hlinkend, hnd, hndid, hx, if_pos hzero]
        exact hrun
      · intro v hv
        rw [hval3 v hv, hD2]
        by_cases hveq : v = endIdx L k
        · subst hveq
          rw [hcself, hrest0]
          simp
        · rw [hcother v hveq]
          simp [hveq]
      · intro x
        rw [hmem3 x, sortQueue_mem, List.mem_append, List.mem_singleton]
        constructor
        · rintro ((hxq | rfl) | ⟨hxn, hcpos, hceq⟩)
          · exact Or.inl hxq
          · exact Or.inr ⟨hek, by rw [hcself, hrest0]; omega,
              by rw [hcself, hrest0, hone]; simp⟩
          · by_cases hveq : x = endIdx L k
            · subst hveq
              rw [hrest0] at hcpos
              exact absurd hcpos (by omega)
            · refine Or.inr ⟨hxn, by rwa [hcother x hveq], ?_⟩
              rw [hcother x hveq]
              simpa [hD2, hveq] using hceq
        · rintro (hxq | ⟨hxn, hcpos, hceq⟩)
          · exact Or.inl (Or.inl hxq)
          · by_cases hveq : x = endIdx L k
            · exact Or.inl (Or.inr hveq)
            · rw [hcother x hveq] at hcpos hceq
              refine Or.inr ⟨hxn, hcpos, ?_⟩
              simpa [hD2, hveq] using hceq
      · intro hqn hqd
        apply hnd3
        · apply sortQueue_nodup
          rw [List.nodup_append]
          refine ⟨hqn, List.nodup_singleton _, ?_⟩
          intro a ha hamem
          have : a = endIdx L k := List.mem_singleton.mp hamem
          subst this
          exact hqd _ ha ⟨by rw [hcself]; omega, by rw [hcself, hrest0, hone]; simp⟩
        · intro x hxq
          rw [sortQueue_mem, List.mem_append, List.mem_singleton] at hxq
          rintro ⟨hcpos, hceq⟩
          rcases hxq with hxq | rfl
          · by_cases hveq : x = endIdx L k
            · subst hveq
              rw [hrest0] at hcpos
              omega
            · refine hqd x hxq ⟨by rwa [hcother x hveq], ?_⟩
              rw [hcother x hveq]
              have : D2 x = D x := by simp [hD2, hveq]
              omega
          · rw [hrest0] at hcpos
            omega
    · by_cases hneg : D (endIdx L k) - 1 < 0
      · -- impossible: the in-degree would go negative
        exfalso
        have := hcnt (endIdx L k) hek
        rw [hcself] at this
        push_cast at this
        omega
      · -- the decrement stays positive: nothing is enqueued
        obtain ⟨q2, d3, hrun, hlen3, hval3, hmem3, hnd3⟩ :=
          ih q d2 D2 hls2 hd2len hd2 hcnt2
        have hDpos : 1 < D (endIdx L k) := by omega
        refine ⟨q2, d3, ?_, hlen3, ?_, ?_, ?_⟩
        · unfold processLinks
          simp only [hget, hlinkend, hnd, hndid, hx, if_neg hzero, if_neg hneg]
          exact hrun
        · intro v hv
          rw [hval3 v hv, hD2]
          by_cases hveq : v = endIdx L k
          · subst hveq
            rw [hcself]
            simp
            omega
          · rw [hcother v hveq]
            simp [hveq]
        · intro x
          rw [hmem3 x]
          constructor
          · rintro (hxq | ⟨hxn, hcpos, hceq⟩)
            · exact Or.inl hxq
            · by_cases hveq : x = endIdx L k
              · subst hveq
                simp only [hD2, if_pos rfl] at hceq
                refine Or.inr ⟨hxn, by rw [hcself]; omega, by rw [hcself]; omega⟩
              · rw [hcother x hveq] at *
                refine Or.inr ⟨hxn, hcpos, by simpa [hD2, hveq] using hceq⟩
          · rintro (hxq | ⟨hxn, hcpos, hceq⟩)
            · exact Or.inl hxq
            · by_cases hveq : x = endIdx L k
              · subst hveq
                rw [hcself] at hcpos hceq
                refine Or.inr ⟨hxn, ?_, ?_⟩
                · have : 0 < countEnds L rest (endIdx L k) := by omega
                  exact this
                · simp only [hD2, if_pos rfl]
                  omega
              · rw [hcother x hveq] at hcpos hceq
                exact Or.inr ⟨hxn, hcpos, by simp [hD2, hveq]; omega⟩
        · intro hqn hqd
          apply hnd3 hqn
          intro x hxq
          rintro ⟨hcpos, hceq⟩
          by_cases hveq : x = endIdx L k
          · subst hveq
            simp only [hD2, if_pos rfl] at hceq
            exact hqd _ hxq ⟨by rw [hcself]; omega, by rw [hcself]; omega⟩
          · have hDx : D2 x = D x := by simp [hD2, hveq]
            exact hqd x hxq ⟨by rwa [hcother x hveq], by rw [hcother x hveq]; omega⟩

/-- Invariant of the sorting loop, in the spirit of Kahn: the in-degree
array holds the number of unprocessed in-links, the result is duplicate-free
and reachable, visited nodes have all in-links processed (except possibly
the seed), the queue holds exactly the fully processed unvisited nodes, and
the result respects link precedence. -/
structure SortInv (L : Lattice) (i0 : ℕ) (st : SortState) : Prop where
  degs_len : st.in_degrees.length = L.nodes.length
  deg_spec : ∀ v, v < L.nodes.length →
    st.in_degrees.get? v = some ((inDegF L v : Int) - procInF L st.result v)
  res_nodup : st.result.Nodup
  res_lt : ∀ v ∈ st.result, v < L.nodes.length
  res_reach : ∀ v ∈ st.result, ReachL L i0 v
  res_deg : ∀ v ∈ st.result, v = i0 ∨ inDegF L v = procInF L st.result v
  q_nodup : st.node_queue.Nodup
  q_lt : ∀ v ∈ st.node_queue, v < L.nodes.length
  q_reach : ∀ v ∈ st.node_queue, ReachL L i0 v
  q_disj : ∀ v ∈ st.node_queue, v ∉ st.result
  q_deg : ∀ v ∈ st.node_queue,
    inDegF L v = procInF L st.result v ∨ (v = i0 ∧ st.result = [])
  q_back : ∀ v, v < L.nodes.length → inDegF L v = procInF L st.result v →
    v ∉ st.result → (0 < inDegF L v ∨ v = i0) → v ∈ st.node_queue
  empty_res : st.result = [] → st.node_queue = [i0]
  head_i0 : st.result = [] ∨ st.result.head? = some i0
  i0_mem : i0 ∈ st.node_queue ∨ i0 ∈ st.result
  topo : ∀ k, k < L.links.length → ∀ pos (hpos : pos < st.result.length),
    st.result.get ⟨pos, hpos⟩ = endIdx L k → startIdx L k ∈ st.result →
    startIdx L k ∈ st.result.take pos

/-- The invariant holds for the seeded state. -/
theorem sortInv_init (L : Lattice) (hWF : WF L) (i0 : ℕ) (hi0 : i0 < L.nodes.length) :
    SortInv L i0
      { node_queue := [i0]
        in_degrees := L.nodes.map (fun nd => (nd.in_links.length : Int))
        result := [] } := by
  refine ⟨?_, ?_, ?_, ?_, ?_, ?_, ?_, ?_, ?_, ?_, ?_, ?_, ?_, ?_, ?_, ?_⟩
  · simp
  · intro v hv
    show (L.nodes.map (fun nd => (nd.in_links.length : Int))).get? v = _
    rw [List.get?_map, List.get?_eq_get hv]
    show some ((L.nodes.get ⟨v, hv⟩).in_links.length : Int) = _
    rw [inLinks_length_eq L hWF v hv, procIn_nil]
    simp
  · exact List.nodup_nil
  · intro v hv; exact absurd hv (List.not_mem_nil v)
  · intro v hv; exact absurd hv (List.not_mem_nil v)
  · intro v hv; exact absurd hv (List.not_mem_nil v)
  · exact List.nodup_singleton i0
  · intro v hv
    rw [List.mem_singleton.mp hv]
    exact hi0
  · intro v hv
    rw [List.mem_singleton.mp hv]
    exact Relation.ReflTransGen.refl
  · intro v _
    exact List.not_mem_nil v
  · intro v hv
    exact Or.inr ⟨List.mem_singleton.mp hv, rfl⟩
  · intro v _ hdeg _ hpos
    rw [procIn_nil] at hdeg
    rcases hpos with hpos | hpos
    · omega
    · exact List.mem_singleton.mpr hpos
  · intro _
    rfl
  · exact Or.inl rfl
  · exact Or.inl (List.mem_singleton.mpr rfl)
  · intro k _ pos hpos
    simp at hpos

theorem no_edge_to_seed {L : Lattice} {i0 : ℕ} (hacyc : AcyclicFrom L i0)
    {u : ℕ} (hu : ReachL L i0 u) (h : EdgeL L u i0) : False :=
  hacyc i0 Relation.ReflTransGen.refl (Relation.TransGen.tail' hu h)

theorem no_self_edge {L : Lattice} {i0 : ℕ} (hacyc : AcyclicFrom L i0)
    {u : ℕ} (hu : ReachL L i0 u) (h : EdgeL L u u) : False :=
  hacyc u hu (Relation.TransGen.single h)

/-- One iteration of the sorting loop preserves the invariant: popping the
last queue element, processing its outgoing links and appending it to the
result succeeds and keeps every invariant clause, while the termination
measure strictly decreases. -/
theorem sortInv_step (L : Lattice) (hWF : WF L) (i0 : ℕ)
    (hacyc : AcyclicFrom L i0) (st : SortState) (hinv : SortInv L i0 st)
    (u : ℕ) (hu : st.node_queue.getLast? = some u) :
    ∃ (hun : u < L.nodes.length) (q2 : List ℕ) (d2 : List Int),
      processLinks L (L.nodes.get ⟨u, hun⟩).out_links st.node_queue.dropLast st.in_degrees
        = .ok (q2, d2)
      ∧ SortInv L i0 { node_queue := q2, in_degrees := d2, result := st.result ++ [u] }
      ∧ q2.length + posCount d2 + 1 ≤ st.node_queue.length + posCount st.in_degrees := by
  have hne : st.node_queue ≠ [] := by
    intro h
    rw [h] at hu
    simp at hu
  have hulast : st.node_queue.getLast hne = u := by
    have h2 := List.getLast?_eq_getLast st.node_queue hne
    rw [h2] at hu
    exact Option.some.inj hu
  have humem : u ∈ st.node_queue := by
    rw [← hulast]
    exact List.getLast_mem hne
  have hun : u < L.nodes.length := hinv.q_lt u humem
  have hdecomp : st.node_queue.dropLast ++ [u] = st.node_queue := by
    rw [← hulast]
    exact List.dropLast_append_getLast hne
  have hdl_sub : ∀ x ∈ st.node_queue.dropLast, x ∈ st.node_queue := by
    intro x hx
    rw [← hdecomp]
    exact List.mem_append_left _ hx
  have hdl_pack : st.node_queue.dropLast.Nodup ∧ u ∉ st.node_queue.dropLast := by
    have h2 := hinv.q_nodup
    rw [← hdecomp, List.nodup_append] at h2
    exact ⟨h2.1, fun hmem => h2.2.2 hmem (List.mem_singleton.mpr rfl)⟩
  have humem_res : u ∉ st.result := hinv.q_disj u humem
  have hureach : ReachL L i0 u := hinv.q_reach u humem
  refine ⟨hun, ?_⟩
  have hWF2 := hWF
  obtain ⟨hids, hout, hin, hrange⟩ := hWF2
  obtain ⟨hondup, homem1, homem2⟩ := hout u hun
  have hls : ∀ k ∈ (L.nodes.get ⟨u, hun⟩).out_links, k < L.links.length :=
    fun k hk => (homem1 k hk).1
  have hcEnds : ∀ v, countEnds L (L.nodes.get ⟨u, hun⟩).out_links v = parEdges L u v :=
    countEnds_out L hWF u hun
  have hcnt : ∀ v, v < L.nodes.length →
      (countEnds L (L.nodes.get ⟨u, hun⟩).out_links v : Int)
        ≤ (inDegF L v : Int) - procInF L st.result v := by
    intro v hv
    rw [hcEnds]
    have h2 := procIn_parEdges_le L st.result u v humem_res
    omega
  obtain ⟨q2, d2, hrun, hlen2, hval2, hmem2, hnodup2⟩ :=
    processLinks_spec L hWF (L.nodes.get ⟨u, hun⟩).out_links
      st.node_queue.dropLast st.in_degrees
      (fun v => (inDegF L v : Int) - procInF L st.result v)
      hls hinv.degs_len hinv.deg_spec hcnt
  -- properties of freshly enqueued nodes
  have hE_props : ∀ x, x < L.nodes.length →
      0 < countEnds L (L.nodes.get ⟨u, hun⟩).out_links x →
      (inDegF L x : Int) - procInF L st.result x
        = countEnds L (L.nodes.get ⟨u, hun⟩).out_links x →
      EdgeL L u x ∧ ReachL L i0 x ∧ x ∉ st.result ∧ x ≠ u
        ∧ inDegF L x = procInF L (st.result ++ [u]) x := by
    intro x hx hpos heq
    rw [hcEnds] at hpos heq
    have hedge : EdgeL L u x := edge_of_parEdges_pos L u x hpos
    have hreachx : ReachL L i0 x := Relation.ReflTransGen.tail hureach hedge
    have hxnr : x ∉ st.result := by
      intro hxres
      rcases hinv.res_deg x hxres with rfl | hfull
      · exact no_edge_to_seed hacyc hureach hedge
      · omega
    have hxneu : x ≠ u := by
      rintro rfl
      exact no_self_edge hacyc hureach hedge
    refine ⟨hedge, hreachx, hxnr, hxneu, ?_⟩
    rw [procIn_append L st.result u x humem_res]
    omega
  have hqd : ∀ x ∈ st.node_queue.dropLast,
      ¬(0 < countEnds L (L.nodes.get ⟨u, hun⟩).out_links x
        ∧ (inDegF L x : Int) - procInF L st.result x
            = countEnds L (L.nodes.get ⟨u, hun⟩).out_links x) := by
    rintro x hx ⟨hpos, heq⟩
    have hxq := hdl_sub x hx
    rcases hinv.q_deg x hxq with hfull | ⟨rfl, hres⟩
    · omega
    · have h2 := hinv.empty_res hres
      rw [h2] at hx
      simp at hx
  have hq2nodup : q2.Nodup := hnodup2 hdl_pack.1 hqd
  -- the count of links from u into a fully processed target is zero
  have hparzero : ∀ v, inDegF L v = procInF L st.result v → parEdges L u v = 0 := by
    intro v hfull
    by_contra hpe
    have hpos : 0 < parEdges L u v := Nat.pos_of_ne_zero hpe
    obtain ⟨k, hk, hks, hke⟩ := (edge_iff_idx L u v).mp (edge_of_parEdges_pos L u v hpos)
    have := procIn_eq_full L st.result v hfull.symm k hk hke
    rw [hks] at this
    exact humem_res this
  refine ⟨q2, d2, hrun, ?_, ?_⟩
  · refine ⟨hlen2, ?_, ?_, ?_, ?_, ?_, hq2nodup, ?_, ?_, ?_, ?_, ?_, ?_, ?_, ?_, ?_⟩
    · -- deg_spec
      intro v hv
      rw [hval2 v hv, hcEnds v, procIn_append L st.result u v humem_res]
      congr 1
      push_cast
      ring
    · -- res_nodup
      rw [List.nodup_append]
      exact ⟨hinv.res_nodup, List.nodup_singleton _,
        fun a ha hb => (List.mem_singleton.mp hb ▸ humem_res) ha⟩
    · -- res_lt
      intro v hv
      rcases List.mem_append.mp hv with hv | hv
      · exact hinv.res_lt v hv
      · rw [List.mem_singleton.mp hv]
        exact hun
    · -- res_reach
      intro v hv
      rcases List.mem_append.mp hv with hv | hv
      · exact hinv.res_reach v hv
      · rw [List.mem_singleton.mp hv]
        exact hureach
    · -- res_deg
      intro v hv
      rcases List.mem_append.mp hv with hv | hv
      · rcases hinv.res_deg v hv with rfl | hfull
        · exact Or.inl rfl
        · refine Or.inr ?_
          rw [procIn_append L st.result u v humem_res, hparzero v hfull]
          omega
      · rw [List.mem_singleton.mp hv]
        rcases hinv.q_deg u humem with hfull | ⟨rfl, _⟩
        · refine Or.inr ?_
          rw [procIn_append L st.result u u humem_res, hparzero u hfull]
          omega
        · exact Or.inl rfl
    · -- q_lt
      intro x hx
      rcases (hmem2 x).mp hx with hx2 | ⟨hx2, _, _⟩
      · exact hinv.q_lt x (hdl_sub x hx2)
      · exact hx2
    · -- q_reach
      intro x hx
      rcases (hmem2 x).mp hx with hx2 | ⟨hx2, hpos, heq⟩
      · exact hinv.q_reach x (hdl_sub x hx2)
      · exact (hE_props x hx2 hpos heq).2.1
    · -- q_disj
      intro x hx hxmem
      rcases (hmem2 x).mp hx with hx2 | ⟨hx2, hpos, heq⟩
      · rcases List.mem_append.mp hxmem with hxr | hxu
        · exact hinv.q_disj x (hdl_sub x hx2) hxr
        · rw [List.mem_singleton.mp hxu] at hx2
          exact hdl_pack.2 hx2
      · obtain ⟨_, _, hxnr, hxneu, _⟩ := hE_props x hx2 hpos heq
        rcases List.mem_append.mp hxmem with hxr | hxu
        · exact hxnr hxr
        · exact hxneu (List.mem_singleton.mp hxu)
    · -- q_deg
      intro x hx
      rcases (hmem2 x).mp hx with hx2 | ⟨hx2, hpos, heq⟩
      · have hxq := hdl_sub x hx2
        rcases hinv.q_deg x hxq with hfull | ⟨rfl, hres⟩
        · refine Or.inl ?_
          rw [procIn_append L st.result u x humem_res, hparzero x hfull]
          omega
        · have h2 := hinv.empty_res hres
          rw [h2] at hx2
          simp at hx2
      · exact Or.inl (hE_props x hx2 hpos heq).2.2.2.2
    · -- q_back
      intro v hv hfull2 hnmem hc
      have hvnr : v ∉ st.result := fun h => hnmem (List.mem_append_left _ h)
      have hvneu : v ≠ u := fun h => hnmem (List.mem_append_right _ (List.mem_singleton.mpr h))
      rw [procIn_append L st.result u v humem_res] at hfull2
      by_cases hpe : 0 < parEdges L u v
      · refine (hmem2 v).mpr (Or.inr ⟨hv, ?_, ?_⟩)
        · rw [hcEnds]
          exact hpe
        · rw [hcEnds]
          push_cast
          omega
      · have hfull : inDegF L v = procInF L st.result v := by omega
        have hvq : v ∈ st.node_queue := hinv.q_back v hv hfull hvnr hc
        have h3 : v ∈ st.node_queue.dropLast ++ [u] := by
          rw [hdecomp]
          exact hvq
        refine (hmem2 v).mpr (Or.inl ?_)
        rcases List.mem_append.mp h3 with h4 | h4
        · exact h4
        · exact absurd (List.mem_singleton.mp h4) hvneu
    · -- empty_res
      intro h
      simp at h
    · -- head_i0
      refine Or.inr ?_
      cases hres : st.result with
      | nil =>
        have hq := hinv.empty_res hres
        rw [hq] at hu
        have hui : u = i0 := by
          have h2 : some i0 = some u := by simpa using hu
          exact (Option.some.inj h2).symm
        show (([] : List ℕ) ++ [u]).head? = some i0
        rw [hui]
        rfl
      | cons a t =>
        have hh := hinv.head_i0
        rw [hres] at hh
        rcases hh with hh | hh
        · exact absurd hh (List.cons_ne_nil a t)
        · show ((a :: t) ++ [u]).head? = some i0
          simpa using hh
    · -- i0_mem
      rcases hinv.i0_mem with hq | hr
      · by_cases hiu : i0 = u
        · refine Or.inr (List.mem_append_right _ ?_)
          rw [hiu]
          exact List.mem_singleton.mpr rfl
        · refine Or.inl ((hmem2 i0).mpr (Or.inl ?_))
          have h3 : i0 ∈ st.node_queue.dropLast ++ [u] := by
            rw [hdecomp]
            exact hq
          rcases List.mem_append.mp h3 with h4 | h4
          · exact h4
          · exact absurd (List.mem_singleton.mp h4) hiu
      · exact Or.inr (List.mem_append_left _ hr)
    · -- topo
      intro k hk pos hpos hgetpos hsmem
      by_cases hposlt : pos < st.result.length
      · have hget2 : (st.result ++ [u]).get ⟨pos, hpos⟩ = st.result.get ⟨pos, hposlt⟩ :=
          List.get_append pos hposlt
        rw [hget2] at hgetpos
        have htake : (st.result ++ [u]).take pos = st.result.take pos :=
          List.take_append_of_le_length (le_of_lt hposlt)
        rw [htake]
        rcases List.mem_append.mp hsmem with hs | hs
        · exact hinv.topo k hk pos hposlt hgetpos hs
        · exfalso
          have hsu : startIdx L k = u := List.mem_singleton.mp hs
          have hedge : EdgeL L u (endIdx L k) :=
            (edge_iff_idx L u (endIdx L k)).mpr ⟨k, hk, hsu, rfl⟩
          have hvres : endIdx L k ∈ st.result := by
            rw [← hgetpos]
            exact List.get_mem _ _ _
          rcases hinv.res_deg _ hvres with hei | hfull
          · rw [hei] at hedge
            exact no_edge_to_seed hacyc hureach hedge
          · have h5 := procIn_eq_full L st.result (endIdx L k) hfull.symm k hk rfl
            rw [hsu] at h5
            exact humem_res h5
      · have hpose : pos = st.result.length := by
          have h6 := hpos
          simp only [List.length_append, List.length_singleton] at h6
          omega
        subst hpose
        have hgetu : (st.result ++ [u]).get ⟨st.result.length, hpos⟩ = u := by
          simp [List.get_eq_getElem]
        rw [hgetu] at hgetpos
        have htake : (st.result ++ [u]).take st.result.length = st.result :=
          List.take_left _ _
        rw [htake]
        rcases List.mem_append.mp hsmem with hs | hs
        · exact hs
        · exfalso
          have hsu : startIdx L k = u := List.mem_singleton.mp hs
          have hedge : EdgeL L u u :=
            (edge_iff_idx L u u).mpr ⟨k, hk, hsu, hgetpos.symm⟩
          exact no_self_edge hacyc hureach hedge
  · -- measure
    have hcount := processLinks_count L _ _ _ _ _ hrun
    have hdll : st.node_queue.dropLast.length = st.node_queue.length - 1 :=
      List.length_dropLast _
    have hqpos : 0 < st.node_queue.length := List.length_pos.mpr hne
    omega

/-! ### Running the sorting loop to completion -/

/-- Fuel induction: from an invariant state whose measure fits the fuel, the
loop runs to completion, the invariant holds at the end and the queue is
exhausted. -/
theorem sortLoop_inv (L : Lattice) (hWF : WF L) (i0 : ℕ)
    (hacyc : AcyclicFrom L i0) :
    ∀ (fuel : ℕ) (st : SortState), SortInv L i0 st →
      st.node_queue.length + posCount st.in_degrees ≤ fuel →
      ∃ st2, sortLoop L fuel st = .ok st2 ∧ SortInv L i0 st2
        ∧ st2.node_queue = [] := by
  intro fuel
  induction fuel with
  | zero =>
    intro st hinv hfuel
    have hqe : st.node_queue = [] := List.length_eq_zero.mp (by omega)
    refine ⟨st, ?_, hinv, hqe⟩
    simp [sortLoop, hqe]
  | succ fuel ih =>
    intro st hinv hfuel
    cases hu : st.node_queue.getLast? with
    | none =>
      have hqe : st.node_queue = [] := List.getLast?_eq_none.mp hu
      exact ⟨st, by simp [sortLoop, hu], hinv, hqe⟩
    | some u =>
      obtain ⟨hun, q2, d2, hrun, hinv2, hmeas⟩ :=
        sortInv_step L hWF i0 hacyc st hinv u hu
      obtain ⟨st2, hloop, hinv3, hq3⟩ := ih _ hinv2 (by
        show q2.length + posCount d2 ≤ fuel
        omega)
      refine ⟨st2, ?_, hinv3, hq3⟩
      have hget : L.nodes.get? u = some (L.nodes.get ⟨u, hun⟩) :=
        List.get?_eq_get hun
      show sortLoop L (fuel + 1) st = .ok st2
      simp only [sortLoop, hu, hget, hrun]
      exact hloop

/-- In a finite set where every element has a predecessor inside the set,
some element lies on a cycle. -/
theorem cycle_of_preds {E : ℕ → ℕ → Prop} (M : Finset ℕ) (hne : M.Nonempty)
    (hstep : ∀ v ∈ M, ∃ u ∈ M, E u v) :
    ∃ w ∈ M, Relation.TransGen E w w := by
  classical
  obtain ⟨v0, hv0⟩ := hne
  choose! g h1 h2 using hstep
  have hfmem : ∀ k, g^[k] v0 ∈ M := by
    intro k
    induction k with
    | zero => exact hv0
    | succ k ihk =>
      rw [Function.iterate_succ_apply']
      exact h1 _ ihk
  have hfE : ∀ k, E (g^[k + 1] v0) (g^[k] v0) := by
    intro k
    rw [Function.iterate_succ_apply']
    exact h2 _ (hfmem k)
  have hchain : ∀ a b, a < b → Relation.TransGen E (g^[b] v0) (g^[a] v0) := by
    intro a b hab
    induction b with
    | zero => omega
    | succ b ihb =>
      rcases Nat.lt_succ_iff_lt_or_eq.mp hab with h3 | h3
      · exact Relation.TransGen.head (hfE b) (ihb h3)
      · subst h3
        exact Relation.TransGen.single (hfE a)
  have hmaps : Set.MapsTo (fun k => g^[k] v0) Set.univ (↑M : Set ℕ) :=
    fun k _ => hfmem k
  obtain ⟨a, -, b, -, hab, hfab⟩ :=
    Set.infinite_univ.exists_ne_map_eq_of_mapsTo hmaps M.finite_toSet
  rcases Nat.lt_or_ge a b with h4 | h4
  · exact ⟨g^[b] v0, hfmem b, hfab ▸ hchain a b h4⟩
  · have h5 : b < a := lt_of_le_of_ne h4 (Ne.symm hab)
    exact ⟨g^[a] v0, hfmem a, hfab.symm ▸ hchain b a h5⟩

/-- When the queue is exhausted and every node is reachable, the invariant
forces every node into the result: a nonempty complement would consist of
nodes that still have an unprocessed incoming link from inside the
complement, yielding a cycle through a reachable node. -/
theorem sortInv_complete (L : Lattice) (hWF : WF L) (i0 : ℕ)
    (hacyc : AcyclicFrom L i0) (st : SortState) (hinv : SortInv L i0 st)
    (hqe : st.node_queue = [])
    (hall : ∀ v, v < L.nodes.length → ReachL L i0 v) :
    ∀ v, v < L.nodes.length → v ∈ st.result := by
  classical
  by_contra hcon
  push_neg at hcon
  obtain ⟨w0, hw0n, hw0⟩ := hcon
  have hMmem : ∀ v, v ∈ (Finset.range L.nodes.length).filter
      (fun v => v ∉ st.result) ↔ (v < L.nodes.length ∧ v ∉ st.result) := by
    intro v
    simp [Finset.mem_filter, Finset.mem_range]
  have hne : ((Finset.range L.nodes.length).filter
      (fun v => v ∉ st.result)).Nonempty := ⟨w0, (hMmem w0).mpr ⟨hw0n, hw0⟩⟩
  have hi0res : i0 ∈ st.result := by
    rcases hinv.i0_mem with h3 | h3
    · rw [hqe] at h3
      exact absurd h3 (List.not_mem_nil i0)
    · exact h3
  have hstep : ∀ v ∈ (Finset.range L.nodes.length).filter
      (fun v => v ∉ st.result),
      ∃ u ∈ (Finset.range L.nodes.length).filter (fun v => v ∉ st.result),
        EdgeL L u v := by
    intro v hv
    obtain ⟨hvn, hvr⟩ := (hMmem v).mp hv
    have hvnei0 : v ≠ i0 := fun h3 => hvr (h3 ▸ hi0res)
    have hvpos : 0 < inDegF L v := by
      rcases Relation.ReflTransGen.cases_tail (hall v hvn) with h3 | ⟨c, _, hc⟩
      · exact absurd h3 hvnei0
      · exact inDeg_pos_of_edge L c v hc
    have hlt : procInF L st.result v < inDegF L v := by
      rcases Nat.lt_or_ge (procInF L st.result v) (inDegF L v) with h3 | h3
      · exact h3
      · exfalso
        have hple := procIn_le L st.result v
        have heq : inDegF L v = procInF L st.result v := by omega
        have hq := hinv.q_back v hvn heq hvr (Or.inl hvpos)
        rw [hqe] at hq
        exact List.not_mem_nil v hq
    obtain ⟨k, hk, hke, hks⟩ := procIn_lt_ex L st.result v hlt
    refine ⟨startIdx L k, (hMmem _).mpr ⟨(hWF.2.2.2 k hk).1, hks⟩,
      (edge_iff_idx L (startIdx L k) v).mpr ⟨k, hk, rfl, hke⟩⟩
  obtain ⟨w, hwM, hwcyc⟩ := cycle_of_preds _ hne hstep
  obtain ⟨hwn, _⟩ := (hMmem w).mp hwM
  exact hacyc w (hall w hwn) hwcyc

/-- A duplicate-free list of numbers below a bound is no longer than the
bound. -/
theorem nodup_length_le_of_lt {l : List ℕ} {n : ℕ} (h1 : l.Nodup)
    (h2 : ∀ x ∈ l, x < n) : l.length ≤ n := by
  classical
  have hsub : l.toFinset ⊆ Finset.range n := by
    intro x hx
    rw [Finset.mem_range]
    exact h2 x (List.mem_toFinset.mp hx)
  have := Finset.card_le_card hsub
  rw [List.toFinset_card_of_nodup h1, Finset.card_range] at this
  exact this

/-- Behaviour of `sorted_nodes` on a store whose reachable part is acyclic:
the call succeeds, the result is duplicate-free, starts at the initial node,
contains only reachable store nodes, contains every node when all are
reachable, warns exactly when the result is short, and respects link
precedence. -/
theorem sorted_nodes_general (L : Lattice) (hWF : WF L) (i0 : ℕ)
    (hini : L.initial_node = some i0) (hi0 : i0 < L.nodes.length)
    (hacyc : AcyclicFrom L i0) :
    ∃ (res : List ℕ) (warn : Bool),
      L.sorted_nodes = .ok (res, warn)
      ∧ res.Nodup
      ∧ (∀ v ∈ res, v < L.nodes.length ∧ ReachL L i0 v)
      ∧ res.head? = some i0
      ∧ ((∀ v, v < L.nodes.length → ReachL L i0 v) →
          ∀ v, v < L.nodes.length → v ∈ res)
      ∧ warn = decide (res.length < L.nodes.length)
      ∧ (∀ k, k < L.links.length → ∀ pos (hpos : pos < res.length),
          res.get ⟨pos, hpos⟩ = endIdx L k → startIdx L k ∈ res →
          startIdx L k ∈ res.take pos) := by
  have hmeas : ([i0] : List ℕ).length
      + posCount (L.nodes.map (fun nd => (nd.in_links.length : Int)))
      ≤ L.nodes.length + 1 := by
    have h1 : posCount (L.nodes.map (fun nd => (nd.in_links.length : Int)))
        ≤ L.nodes.length := by
      have h2 := List.countP_le_length (fun x : Int => decide (0 < x))
        (l := L.nodes.map (fun nd => (nd.in_links.length : Int)))
      rw [List.length_map] at h2
      exact h2
    simp only [List.length_singleton]
    omega
  obtain ⟨st2, hloop, hinv2, hq2⟩ := sortLoop_inv L hWF i0 hacyc
    (L.nodes.length + 1)
    { node_queue := [i0]
      in_degrees := L.nodes.map (fun nd => (nd.in_links.length : Int))
      result := [] }
    (sortInv_init L hWF i0 hi0) hmeas
  have hlt : ∀ v ∈ st2.result, v < L.nodes.length := hinv2.res_lt
  have hlen : st2.result.length ≤ L.nodes.length :=
    nodup_length_le_of_lt hinv2.res_nodup hlt
  have hhead : st2.result.head? = some i0 := by
    rcases hinv2.head_i0 with h3 | h3
    · exfalso
      rcases hinv2.i0_mem with h4 | h4
      · rw [hq2] at h4
        exact List.not_mem_nil i0 h4
      · rw [h3] at h4
        exact List.not_mem_nil i0 h4
    · exact h3
  refine ⟨st2.result, decide (st2.result.length < L.nodes.length), ?_,
    hinv2.res_nodup, fun v hv => ⟨hinv2.res_lt v hv, hinv2.res_reach v hv⟩,
    hhead,
    fun hall => sortInv_complete L hWF i0 hacyc st2 hinv2 hq2 hall,
    rfl, hinv2.topo⟩
  show Lattice.sorted_nodes L = _
  simp only [Lattice.sorted_nodes, hini, hloop]
  by_cases hcase : st2.result.length < L.nodes.length
  · simp only [if_pos hcase]
    rw [decide_eq_true hcase]
  · have hceq : st2.result.length = L.nodes.length := by omega
    simp only [if_neg hcase, if_pos hceq]
    rw [decide_eq_false hcase]

/-! ### Claims C2 and C4: reachable coverage of the result -/

/-- No link of `latUnreach` ends at node 1, so node 1 is unreachable from
the initial node. -/
theorem latUnreach_not_reach_1 : ¬ ReachL latUnreach 0 1 := by
  have hno1 : ∀ c, ¬ EdgeL latUnreach c 1 := by
    rintro c ⟨link, hmem, h1, h2⟩
    have hmem2 : link ∈ [mkLink 0 2, mkLink 1 2] := hmem
    rcases List.mem_cons.mp hmem2 with rfl | h3
    · exact absurd h2 (by decide)
    · rcases List.mem_cons.mp h3 with rfl | h4
      · exact absurd h2 (by decide)
      · exact List.not_mem_nil link h4
  intro hreach
  rcases Relation.ReflTransGen.cases_tail hreach with h3 | ⟨c, _, hc⟩
  · exact absurd h3 (by decide)
  · exact hno1 c hc

/-- C2 counterexample: a well-formed store with `initial_node` set whose
graph is acyclic, on which `sorted_nodes` omits the reachable node 2 from
its result: that node keeps a positive remaining in-degree because one of
its incoming links starts at an unreachable node.  The claim requires the
result to contain every node reachable from the initial node. -/
theorem c2_counterexample :
    WF latUnreach
    ∧ latUnreach.initial_node = some 0
    ∧ AcyclicFrom latUnreach 0
    ∧ ReachL latUnreach 0 2
    ∧ latUnreach.sorted_nodes = .ok ([0], true)
    ∧ (2 : ℕ) ∉ ([0] : List ℕ) :=
  ⟨by decide, rfl, acyclicFrom_of_links_lt (by decide) 0,
    Relation.ReflTransGen.single (show EdgeL latUnreach 0 2 by decide),
    rfl, by decide⟩

/-- C2 (amended): on a well-formed store with `initial_node` set, an acyclic
reachable part and every store node reachable from the initial node,
`sorted_nodes` succeeds without a warning and returns every node exactly
once, with the start node of every link placed before its end node. -/
theorem c2_amended (L : Lattice) (i0 : ℕ) (hWF : WF L)
    (hini : L.initial_node = some i0) (hi0 : i0 < L.nodes.length)
    (hacyc : AcyclicFrom L i0)
    (hall : ∀ v, v < L.nodes.length → ReachL L i0 v) :
    ∃ res : List ℕ,
      L.sorted_nodes = .ok (res, false)
      ∧ res.Nodup
      ∧ (∀ v, v ∈ res ↔ (v < L.nodes.length ∧ ReachL L i0 v))
      ∧ (∀ k, k < L.links.length → ∀ pos (hpos : pos < res.length),
          res.get ⟨pos, hpos⟩ = endIdx L k → startIdx L k ∈ res →
          startIdx L k ∈ res.take pos) := by
  obtain ⟨res, warn, hok, hnd, hsub, hhead, hcompl, hwarn, htopo⟩ :=
    sorted_nodes_general L hWF i0 hini hi0 hacyc
  have hmem : ∀ v, v ∈ res ↔ (v < L.nodes.length ∧ ReachL L i0 v) := by
    intro v
    constructor
    · exact hsub v
    · intro hv
      exact hcompl hall v hv.1
  have hlen : res.length = L.nodes.length := by
    have h1 : ∀ v, v ∈ res ↔ v ∈ List.range L.nodes.length := by
      intro v
      rw [hmem v, List.mem_range]
      constructor
      · exact And.left
      · intro hv
        exact ⟨hv, hall v hv⟩
    have h2 := nodup_length_eq_of_mem_iff hnd (List.nodup_range _) h1
    rw [List.length_range] at h2
    exact h2
  have hwf : warn = false := by
    rw [hwarn, hlen]
    exact decide_eq_false (lt_irrefl _)
  rw [hwf] at hok
  exact ⟨res, hok, hnd, hmem, htopo⟩

/-- Witness for the amended claim C2 at a two-node chain in which every node
is reachable. -/
theorem c2_amended_witness :
    (WF latChain2 ∧ (0 : ℕ) < latChain2.nodes.length
      ∧ (∀ v, v < latChain2.nodes.length → ReachL latChain2 0 v))
    ∧ ∃ res : List ℕ,
      latChain2.sorted_nodes = .ok (res, false)
      ∧ res.Nodup
      ∧ (∀ v, v ∈ res ↔ (v < latChain2.nodes.length ∧ ReachL latChain2 0 v))
      ∧ (∀ k, k < latChain2.links.length → ∀ pos (hpos : pos < res.length),
          res.get ⟨pos, hpos⟩ = endIdx latChain2 k →
          startIdx latChain2 k ∈ res →
          startIdx latChain2 k ∈ res.take pos) := by
  have hall : ∀ v, v < latChain2.nodes.length → ReachL latChain2 0 v := by
    intro v hv
    have hv2 : v < 2 := hv
    rcases v with _ | v
    · exact Relation.ReflTransGen.refl
    · rcases v with _ | v
      · exact Relation.ReflTransGen.single (show EdgeL latChain2 0 1 by decide)
      · exact absurd hv2 (by omega)
  exact ⟨⟨by decide, by decide, hall⟩,
    c2_amended latChain2 0 (by decide) rfl (by decide)
      (acyclicFrom_of_links_lt (by decide) 0) hall⟩

/-- A duplicate-free list of numbers below a bound that misses one number
below the bound is shorter than the bound. -/
theorem nodup_length_lt_of_avoid {l : List ℕ} {n w : ℕ} (h1 : l.Nodup)
    (h2 : ∀ x ∈ l, x < n) (hw : w < n) (hwl : w ∉ l) : l.length < n := by
  classical
  have hsub : l.toFinset ⊆ (Finset.range n).erase w := by
    intro x hx
    have hxl := List.mem_toFinset.mp hx
    rw [Finset.mem_erase, Finset.mem_range]
    exact ⟨fun h3 => hwl (h3 ▸ hxl), h2 x hxl⟩
  have h3 := Finset.card_le_card hsub
  rw [List.toFinset_card_of_nodup h1,
    Finset.card_erase_of_mem (Finset.mem_range.mpr hw),
    Finset.card_range] at h3
  omega

/-- C4 counterexample: on this store `sorted_nodes` does succeed with the
warning and excludes the unreachable node 1, but the result is not exactly
the reachable subgraph: the reachable node 2 is missing as well, because its
remaining in-degree is held positive by a link from the unreachable node.
The claim asserts the result represents exactly the reachable subgraph. -/
theorem c4_counterexample :
    latUnreach.initial_node = some 0
    ∧ AcyclicFrom latUnreach 0
    ∧ ¬ ReachL latUnreach 0 1
    ∧ ReachL latUnreach 0 2
    ∧ latUnreach.sorted_nodes = .ok ([0], true)
    ∧ (2 : ℕ) ∉ ([0] : List ℕ) :=
  ⟨rfl, acyclicFrom_of_links_lt (by decide) 0, latUnreach_not_reach_1,
    Relation.ReflTransGen.single (show EdgeL latUnreach 0 2 by decide),
    rfl, by decide⟩

/-- C4 (amended): on a well-formed store with `initial_node` set, an acyclic
reachable part and at least one unreachable node, `sorted_nodes` does not
fail: it returns a duplicate-free result headed by the initial node together
with the warning, every result node is reachable, and the unreachable node
is excluded. -/
theorem c4_amended (L : Lattice) (i0 : ℕ) (hWF : WF L)
    (hini : L.initial_node = some i0) (hi0 : i0 < L.nodes.length)
    (hacyc : AcyclicFrom L i0)
    (w : ℕ) (hw : w < L.nodes.length) (hwnr : ¬ ReachL L i0 w) :
    ∃ res : List ℕ,
      L.sorted_nodes = .ok (res, true)
      ∧ res.Nodup
      ∧ res.head? = some i0
      ∧ (∀ v ∈ res, v < L.nodes.length ∧ ReachL L i0 v)
      ∧ w ∉ res := by
  obtain ⟨res, warn, hok, hnd, hsub, hhead, _, hwarn, _⟩ :=
    sorted_nodes_general L hWF i0 hini hi0 hacyc
  have hwres : w ∉ res := fun h3 => hwnr (hsub w h3).2
  have hlen : res.length < L.nodes.length :=
    nodup_length_lt_of_avoid hnd (fun x hx => (hsub x hx).1) hw hwres
  have hwt : warn = true := by
    rw [hwarn]
    exact decide_eq_true hlen
  rw [hwt] at hok
  exact ⟨res, hok, hnd, hhead, hsub, hwres⟩

/-- Witness for the amended claim C4 at the store with an unreachable
node. -/
theorem c4_amended_witness :
    (WF latUnreach ∧ (0 : ℕ) < latUnreach.nodes.length
      ∧ (1 : ℕ) < latUnreach.nodes.length ∧ ¬ ReachL latUnreach 0 1)
    ∧ ∃ res : List ℕ,
      latUnreach.sorted_nodes = .ok (res, true)
      ∧ res.Nodup
      ∧ res.head? = some 0
      ∧ (∀ v ∈ res, v < latUnreach.nodes.length ∧ ReachL latUnreach 0 v)
      ∧ (1 : ℕ) ∉ res := by
  exact ⟨⟨by decide, by decide, by decide, latUnreach_not_reach_1⟩,
    c4_amended latUnreach 0 (by decide) rfl (by decide)
      (acyclicFrom_of_links_lt (by decide) 0) 1 (by decide)
      latUnreach_not_reach_1⟩

end WordLattice
